import Mathlib

/-!
# terraform-module-checker: a shallow embedding of `main.go`

The program validates the Terraform modules changed by a pull request.  This
file embeds the parts of `main.go` that carry its logic:

* `findChangedModules`  (text filtering of the `git diff --name-only` output),
* `terraformInstaller.get`, `getConstraintsFromFile`,
  `getTerraformInstallerFromConstraints`, `download`  (constraint reading,
  version resolution, the per-run toolchain map),
* the goroutine body of `main` (one task per module) and the shared `errCount`.

Conventions.

* A Go `string` is a Lean `String`; a Go `error` is modelled by its message, and
  a Go pair `(x, err)` by `Except String _` (`.error msg` when `err != nil`).
* Calls that leave the program (the file system, the HCL decoder, the release
  registry, the installer, the `terraform` binary) are parameters of the
  embedded functions: each definition receives the outcome the collaborator
  gives and does with it what the Go code does.
* Functions that touch the outside world also return the list of the external
  operations they performed (`Effect`), so that "is invoked", "is executed once"
  and "in that order" are statements about that list.
* A module task is the sequence of its observable steps (`Action`): stage
  calls, log records, increments of `errCount`, and the run-time panic of the
  nil dereference of `d.Range` at line 224, which ends the whole process.  An
  execution of `main` is a merge of the tasks' sequences, cut at the first
  panic.
-/

namespace TfCheck

/-! ## Constants -/

/-- Constant `tempBinariesFolder` of `main.go`. -/
def tempBinariesFolder : String := "/tmp/terraform-module-checker"

/-- Constant `defaultConstraints` of `main.go`. -/
def defaultConstraints : String := ">1.0.0"

/-! ## `path.Join` (Go standard library)

`path.Join` drops empty arguments, joins the rest with `/` and applies
`path.Clean`.  `path.Clean` is modelled on the list of `/`-separated elements of
the path, following the four rules of its documentation: empty elements
(multiple slashes) and `.` elements are dropped, a `..` element removes the
element before it when there is one to remove, is dropped at the root of a
rooted path and is kept otherwise; an empty result is `.`. -/

/-- Split of a character list at every occurrence of `sep` (Go `strings.Split`
with a one-character separator): the result always has at least one field. -/
def splitOnChar (sep : Char) : List Char → List (List Char)
  | [] => [[]]
  | c :: cs =>
    if c = sep then [] :: splitOnChar sep cs
    else
      match splitOnChar sep cs with
      | [] => [[c]]
      | f :: fs => (c :: f) :: fs

/-- Join of fields with a one-character separator (Go `strings.Join`). -/
def joinWithChar (sep : Char) : List (List Char) → List Char
  | [] => []
  | [f] => f
  | f :: g :: fs => f ++ sep :: joinWithChar sep (g :: fs)

/-- One step of `path.Clean`: the elements kept so far (`out`, in order) and the
next element of the input. -/
def cleanStep (rooted : Bool) (out : List (List Char)) (elem : List Char) : List (List Char) :=
  if elem = [] then out
  else if elem = ['.'] then out
  else if elem = ['.', '.'] then
    match out.getLast? with
    | none => if rooted then out else out ++ [elem]
    | some last => if last = ['.', '.'] then out ++ [elem] else out.dropLast
  else out ++ [elem]

/-- Go `path.Clean` on a character list. -/
def pathClean (p : List Char) : List Char :=
  if p = [] then ['.']
  else
    let rooted : Bool := p.head? = some '/'
    let out := (splitOnChar '/' p).foldl (cleanStep rooted) []
    if rooted then '/' :: joinWithChar '/' out
    else if out = [] then ['.'] else joinWithChar '/' out

/-- Go `path.Join` of two elements, on character lists. -/
def pathJoinChars (a b : List Char) : List Char :=
  if a = [] ∧ b = [] then []
  else if a = [] then pathClean b
  else if b = [] then pathClean a
  else pathClean (a ++ '/' :: b)

/-- Go `path.Join(a, b)`. -/
def pathJoin (a b : String) : String := String.mk (pathJoinChars a.toList b.toList)

/-! ## The toolchain map: `terraformInstaller` -/

/-- External operations performed by the installer code, in the order they are
performed. -/
inductive Effect where
  /-- `os.Stat(path)`. -/
  | stat (path : String)
  /-- `ioutil.ReadFile(path)`. -/
  | readFile (path : String)
  /-- `hclsimple.Decode("versions.hcl", file, nil, &versionsFile)`. -/
  | decode (file : String)
  /-- Call of `getTerraformInstallerFromConstraints(constraints)`: the registry
  is queried for this constraint string. -/
  | resolve (constraints : String)
  /-- `createFolder(dir)`. -/
  | createFolder (dir : String)
  /-- `installer.Install` for version `ver` with `InstallDir = dir`. -/
  | install (ver : String) (dir : String)
  deriving DecidableEq, Repr

/-- Struct `terraformInstaller`: the Go map `versions` from version string to
executable path, as an association list read from the front. -/
structure TerraformInstaller where
  versions : List (String × String)
  deriving DecidableEq, Repr

/-- Map read `ti.versions[key]` with the presence flag (`v, ok := m[key]`). -/
def TerraformInstaller.lookup (ti : TerraformInstaller) (key : String) : Option String :=
  (ti.versions.find? (fun kv => kv.1 = key)).map (fun kv => kv.2)

/-- Map write `ti.versions[key] = value`. -/
def TerraformInstaller.insert (ti : TerraformInstaller) (key value : String) : TerraformInstaller :=
  { versions := (key, value) :: ti.versions.filter (fun kv => kv.1 ≠ key) }

/-- Value of `make(map[string]string)`. -/
def TerraformInstaller.empty : TerraformInstaller := { versions := [] }

/-- Struct `VersionsFile` after decoding: the only field read is
`Terraform.VersionConstraints` (`required_version`, optional, `""` when absent). -/
structure VersionsFile where
  versionConstraints : String
  deriving DecidableEq, Repr

/-- Method `getConstraintsFromFile`.  `readFile` and `decode` are the outcomes
of `ioutil.ReadFile` and `hclsimple.Decode`. -/
def getConstraintsFromFile (readFile : String → Except String String)
    (decode : String → Except String VersionsFile) (versionsFilePath : String) :
    List Effect × Except String String :=
  match readFile versionsFilePath with
  | .error err => ([Effect.readFile versionsFilePath], .error err)
  | .ok file =>
    match decode file with
    | .error err => ([Effect.readFile versionsFilePath, Effect.decode file], .error err)
    | .ok versionsFile =>
      ([Effect.readFile versionsFilePath, Effect.decode file], .ok versionsFile.versionConstraints)

/-- Method `getTerraformInstallerFromConstraints`.  `newConstraint` is
`version.NewConstraint`, `listVersions` is `releases.Versions.List` for the
Terraform product and the parsed constraint: the list of matching releases it
returns.  The result is the element at index `len(matchingVersions)-1`. -/
def getTerraformInstallerFromConstraints {C V : Type} (newConstraint : String → Except String C)
    (listVersions : C → Except String (List V)) (constraints : String) : Except String V :=
  match newConstraint constraints with
  | .error err => .error err
  | .ok verConstraints =>
    match listVersions verConstraints with
    | .error err => .error err
    | .ok matchingVersions =>
      if h : matchingVersions.length = 0 then
        .error ("no matching versions for constraint: " ++ constraints)
      else
        .ok (matchingVersions.get ⟨matchingVersions.length - 1, by omega⟩)

/-- Method `download`.  `requiredVer` is `installer.Version.String()`; `install`
gives what `installer.Install` returns for the install directory it is handed,
should it be executed during this call. -/
def download (install : String → Except String String) (ti : TerraformInstaller)
    (requiredVer : String) : TerraformInstaller × List Effect × Except String String :=
  let execDir := pathJoin tempBinariesFolder requiredVer
  match ti.lookup requiredVer with
  | none =>
    match install execDir with
    | .error err =>
      (ti, [Effect.createFolder execDir, Effect.install requiredVer execDir], .error err)
    | .ok execPath =>
      let ti1 := ti.insert requiredVer execPath
      (ti1, [Effect.createFolder execDir, Effect.install requiredVer execDir],
        .ok ((ti1.lookup requiredVer).getD ""))
  | some execPath => (ti, [], .ok execPath)

/-- The collaborators of one call of `terraformInstaller.get`. -/
structure GetEnv (C V : Type) where
  /-- `os.Stat`: `true` when it returns a nil error. -/
  stat : String → Bool
  /-- `ioutil.ReadFile`. -/
  readFile : String → Except String String
  /-- `hclsimple.Decode` into a `VersionsFile`. -/
  decode : String → Except String VersionsFile
  /-- `version.NewConstraint`. -/
  newConstraint : String → Except String C
  /-- `releases.Versions.List`. -/
  listVersions : C → Except String (List V)
  /-- `installer.Version.String()`. -/
  versionString : V → String
  /-- `installer.Install`, by version and install directory. -/
  install : V → String → Except String String

/-- Lines 75-82 of `get`: resolution of the constraint string, then `download`
of the release found. -/
def resolveAndDownload {C V : Type} (env : GetEnv C V) (ti : TerraformInstaller)
    (constraints : String) : TerraformInstaller × List Effect × Except String String :=
  match getTerraformInstallerFromConstraints env.newConstraint env.listVersions constraints with
  | .error err => (ti, [Effect.resolve constraints], .error err)
  | .ok installer =>
    let r := download (env.install installer) ti (env.versionString installer)
    (r.1, Effect.resolve constraints :: r.2.1, r.2.2)

/-- Method `get`. -/
def get {C V : Type} (env : GetEnv C V) (ti : TerraformInstaller) (workDir : String) :
    TerraformInstaller × List Effect × Except String String :=
  let versionsFilePath := pathJoin workDir "versions.tf"
  let fromFile : List Effect × Except String String :=
    if env.stat versionsFilePath then
      let r := getConstraintsFromFile env.readFile env.decode versionsFilePath
      (Effect.stat versionsFilePath :: r.1, r.2)
    else ([Effect.stat versionsFilePath], .ok "")
  match fromFile.2 with
  | .error err => (ti, fromFile.1, .error err)
  | .ok declared =>
    let constraints := if declared = "" then defaultConstraints else declared
    let r := resolveAndDownload env ti constraints
    (r.1, fromFile.1 ++ r.2.1, r.2.2)

/-- A sequence of serialised `download` calls: each call names the version it
asks for and carries the installer outcome of that moment.  The result is the
final map, all effects in order, and the value returned by each call. -/
def downloadAll : TerraformInstaller → List (String × (String → Except String String)) →
    TerraformInstaller × List Effect × List (Except String String)
  | ti, [] => (ti, [], [])
  | ti, (ver, install) :: calls =>
    let r := download install ti ver
    let rest := downloadAll r.1 calls
    (rest.1, r.2.1 ++ rest.2.1, r.2.2 :: rest.2.2)

/-- Number of times `installer.Install` was executed for version `ver`. -/
def installCount (ver : String) (effects : List Effect) : Nat :=
  (effects.filter (fun e => match e with
    | Effect.install v _ => decide (v = ver)
    | _ => false)).length

/-! ## `findChangedModules` -/

/-- Go `strings.Split(s, sep)` for a one-character separator. -/
def strSplit (sep : Char) (s : String) : List String :=
  (splitOnChar sep s.toList).map String.mk

/-- Go `strings.Join(fields, sep)` for a one-character separator. -/
def strJoin (sep : Char) (fields : List String) : String :=
  String.mk (joinWithChar sep (fields.map String.toList))

/-- Go `strings.HasSuffix(line, ".tf")`. -/
def hasSuffixTf (line : String) : Bool :=
  ['.', 't', 'f'].isSuffixOf line.toList

/-- Lines 295-298: the key written to `uniqueMap` for a line, the line without
its last `/`-separated field. -/
def moduleKey (line : String) : String :=
  strJoin '/' (strSplit '/' line).dropLast

/-- Write `uniqueMap[key] = struct{}{}`, the map being the list of its keys in
order of first insertion. -/
def insertKey (keys : List String) (key : String) : List String :=
  if key ∈ keys then keys else keys ++ [key]

/-- Body of the loop over the lines of the diff output. -/
def scanLine (keys : List String) (line : String) : List String :=
  if line = "" then keys
  else if !hasSuffixTf line then keys
  else insertKey keys (moduleKey line)

/-- Keys of `uniqueMap` after the loop over `strings.Split(output, "\n")`. -/
def uniqueMapKeys (output : String) : List String :=
  (strSplit '\n' output).foldl scanLine []

/-- Function `findChangedModules` on the text returned by the `git diff`
command, with the keys of `uniqueMap` visited in order of first insertion. -/
def findChangedModules (workspace output : String) : List String :=
  (uniqueMapKeys output).map (pathJoin workspace)

/-- Go iterates over a map in an unspecified order: the slices
`findChangedModules` may return are the rearrangements of the one above. -/
def FindChangedModulesReturns (workspace output : String) (modules : List String) : Prop :=
  modules.Perm (findChangedModules workspace output)

/-- Well-formedness of a path that `git diff --name-only` prints: none of its
directory elements is empty, `.` or `..`. -/
def GitPath (line : String) : Prop :=
  ∀ elem ∈ (strSplit '/' line).dropLast, elem ≠ "" ∧ elem ≠ "." ∧ elem ≠ ".."

instance (line : String) : Decidable (GitPath line) := by
  unfold GitPath
  infer_instance

/-! ## The module task of `main` -/

/-- Levels of the log calls of the module task (`logger.Error*`, `logger.Warn*`). -/
inductive Level where
  | error
  | warn
  deriving DecidableEq, Repr

/-- A log record: level, the fields attached to the logger, the message. -/
structure LogEntry where
  level : Level
  module : String
  filename : Option String
  line : Option Nat
  message : String
  deriving DecidableEq, Repr

/-- The fields of a `tfjson.Range` read by the task: `Filename`, `Start.Line`. -/
structure Range where
  filename : String
  line : Nat
  deriving DecidableEq, Repr

/-- The fields of a `tfjson.Diagnostic` read by the task: `Severity`, `Summary`,
`Detail`, `Range`.  `Range` is a pointer (`*Range`): it is `none` (nil) for a
diagnostic that has no source location. -/
structure Diagnostic where
  severity : String
  summary : String
  detail : String
  range : Option Range
  deriving DecidableEq, Repr

/-- Constant `tfjson.DiagnosticSeverityError`. -/
def diagnosticSeverityError : String := "error"

/-- Constant `tfjson.DiagnosticSeverityWarning`. -/
def diagnosticSeverityWarning : String := "warning"

/-- The fields of `tfjson.ValidateOutput` read by the task. -/
structure ValidateOutput where
  valid : Bool
  diagnostics : List Diagnostic
  deriving DecidableEq, Repr

/-- What the collaborators return to the task of one module. -/
structure StageResults where
  /-- `installer.get(module)`, called under the mutex. -/
  get : Except String String
  /-- Error of `tfexec.NewTerraform(module, execPath)`, `none` for nil. -/
  newTerraform : Option String
  /-- Error of `tf.Init`, `none` for nil. -/
  init : Option String
  /-- `tf.Validate`. -/
  validate : Except String ValidateOutput
  /-- The three values of `tf.FormatCheck`: formatted flag, files, error. -/
  formatCheck : Bool × List String × Option String

/-- The stages a task calls. -/
inductive Stage where
  | get
  | newTerraform
  | init
  | validate
  | formatCheck
  deriving DecidableEq, Repr

/-- The observable steps of a module task. -/
inductive Action where
  /-- Call of a stage. -/
  | call (stage : Stage)
  /-- A log record written. -/
  | log (entry : LogEntry)
  /-- `atomic.AddInt32(&errCount, 1)`. -/
  | addErrCount
  /-- Run-time panic of the goroutine (nil pointer dereference): no goroutine
  recovers, so the whole process ends here, without running the deferred
  `os.Exit(int(errCount))`. -/
  | panic
  deriving DecidableEq, Repr

/-- Record written by `logger.Error`/`logger.Warnf` of the task logger, which
carries the field `module` only. -/
def taskLog (level : Level) (module message : String) : Action :=
  Action.log { level := level, module := module, filename := none, line := none, message := message }

/-- Lines 227-231, the severity test of the loop body, for a diagnostic whose
`Range` is `range`. -/
def diagnosticActions (module : String) (d : Diagnostic) (range : Range) : List Action :=
  if d.severity = diagnosticSeverityError then
    [Action.log { level := Level.error, module := module, filename := some range.filename,
                  line := some range.line, message := d.detail }]
  else if d.severity = diagnosticSeverityWarning then
    [Action.log { level := Level.warn, module := module, filename := some range.filename,
                  line := some range.line, message := d.summary }]
  else []

/-- Lines 220-232: the loop over `validate.Diagnostics`, followed by `rest`, the
remainder of the task.  The loop body first builds the logger from
`d.Range.Filename` and `d.Range.Start.Line` (lines 222-226): for a diagnostic
whose `Range` is nil this dereference panics, and neither the rest of the loop
nor `rest` is executed. -/
def diagnosticsLoop (module : String) (rest : List Action) : List Diagnostic → List Action
  | [] => rest
  | d :: ds =>
    match d.range with
    | none => [Action.panic]
    | some range => diagnosticActions module d range ++ diagnosticsLoop module rest ds

/-- Go `strings.Join(files, ", ")`. -/
def joinCommaSpace : List String → String
  | [] => ""
  | [f] => f
  | f :: g :: fs => f ++ ", " ++ joinCommaSpace (g :: fs)

/-- Lines 234-239: the format-check stage.  The error returned by
`tf.FormatCheck` is discarded (`_`); only the flag is tested. -/
def formatStage (module : String) (formatCheck : Bool × List String × Option String) :
    List Action :=
  Action.call Stage.formatCheck ::
    (if !formatCheck.1 then
      [taskLog Level.error module ("Unformatted files: " ++ joinCommaSpace formatCheck.2.1),
       Action.addErrCount]
    else [])

/-- Lines 207-239: what follows `tf.Init`. -/
def validateStage (module : String) (r : StageResults) : List Action :=
  match r.validate with
  | .error err =>
    [Action.call Stage.validate, taskLog Level.error module err, Action.addErrCount]
  | .ok validate =>
    Action.call Stage.validate ::
      ((if !validate.valid then [Action.addErrCount] else []) ++
        diagnosticsLoop module (formatStage module r.formatCheck) validate.diagnostics)

/-- Lines 201-205: `tf.Init` and its warning. -/
def initStage (module : String) (r : StageResults) : List Action :=
  Action.call Stage.init ::
    (match r.init with
     | some err => [taskLog Level.warn module ("Terraform init error: " ++ err)]
     | none => [])

/-- The goroutine body of `main` for one module (lines 178-241). -/
def moduleTask (module : String) (r : StageResults) : List Action :=
  match r.get with
  | .error err => [Action.call Stage.get, taskLog Level.error module err, Action.addErrCount]
  | .ok _ =>
    match r.newTerraform with
    | some err =>
      [Action.call Stage.get, Action.call Stage.newTerraform, taskLog Level.error module err,
        Action.addErrCount]
    | none =>
      Action.call Stage.get :: Action.call Stage.newTerraform ::
        (initStage module r ++ validateStage module r)

/-! ## The shared counter and the join -/

/-- Go `int32` wrap-around of an integer. -/
def wrapInt32 (x : Int) : Int := (x + 2 ^ 31) % 2 ^ 32 - 2 ^ 31

/-- Effect of one action on `errCount`: `atomic.AddInt32(&errCount, 1)` adds one,
the other actions leave it. -/
def stepErrCount (errCount : Int) : Action → Int
  | Action.addErrCount => wrapInt32 (errCount + 1)
  | _ => errCount

/-- Value of `errCount` after the actions of `trace`, from `var errCount int32`:
the value handed to `os.Exit` once `wg.Wait()` has returned. -/
def finalErrCount (trace : List Action) : Int :=
  trace.foldl stepErrCount 0

/-- Merge of two action sequences that keeps the order of each. -/
inductive Shuffle {α : Type} : List α → List α → List α → Prop where
  | nil : Shuffle [] [] []
  | left (a : α) {l r t : List α} : Shuffle l r t → Shuffle (a :: l) r (a :: t)
  | right (a : α) {l r t : List α} : Shuffle l r t → Shuffle l (a :: r) (a :: t)

/-- The executions of concurrent tasks: every merge of the tasks' action
sequences that keeps the order inside each task. -/
inductive Interleaving {α : Type} : List (List α) → List α → Prop where
  | nil : Interleaving [] []
  | cons {task rest trace : List α} {tasks : List (List α)} :
      Shuffle task rest trace → Interleaving tasks rest → Interleaving (task :: tasks) trace

/-- What the process executes of a merged sequence: everything up to the first
panic, which ends the process. -/
def cutAtPanic : List Action → List Action
  | [] => []
  | a :: rest => if a = Action.panic then [Action.panic] else a :: cutAtPanic rest

/-- The executions of `main` on a list of modules with their stage results:
one goroutine per module, merged in any order, until `wg.Wait()` returns or a
goroutine panics. -/
def MainRun (modules : List (String × StageResults)) (trace : List Action) : Prop :=
  ∃ merged, Interleaving (modules.map (fun m => moduleTask m.1 m.2)) merged ∧
    trace = cutAtPanic merged

/-- One execution of `main`: the tasks run one after the other. -/
def sequentialRun (modules : List (String × StageResults)) : List Action :=
  cutAtPanic (modules.map (fun m => moduleTask m.1 m.2)).flatten

/-- How the process ends: the deferred `os.Exit(int(errCount))` with the value
it is handed, or a panic of a goroutine before `wg.Wait()` returns. -/
inductive Outcome where
  | exit (code : Int)
  | panicked
  deriving DecidableEq, Repr

/-- End of the process for an execution. -/
def processOutcome (trace : List Action) : Outcome :=
  if Action.panic ∈ trace then Outcome.panicked else Outcome.exit (finalErrCount trace)

/-- Every diagnostic of the `Validate` result carries a `Range`. -/
def rangesPresent (r : StageResults) : Bool :=
  match r.validate with
  | .error _ => true
  | .ok validate => validate.diagnostics.all (fun d => d.range.isSome)

/-- Number of `atomic.AddInt32(&errCount, 1)` in a sequence of actions. -/
def countAdds (actions : List Action) : Nat :=
  (actions.filter (fun a => decide (a = Action.addErrCount))).length

/-- What one module task adds to `errCount`. -/
def taskAdds (module : String) (r : StageResults) : Nat :=
  countAdds (moduleTask module r)

/-- The stages called by a sequence of actions, in order. -/
def stagesCalled (actions : List Action) : List Stage :=
  actions.filterMap (fun a => match a with
    | Action.call s => some s
    | _ => none)

/-- The log records written by a sequence of actions, in order. -/
def logsWritten (actions : List Action) : List LogEntry :=
  actions.filterMap (fun a => match a with
    | Action.log e => some e
    | _ => none)

/-- A module passes: `get` succeeds, the client is created, `Validate` is
invoked without error and reports valid, `FormatCheck` returns formatted. -/
def modulePasses (r : StageResults) : Bool :=
  match r.get, r.newTerraform, r.validate with
  | .ok _, none, .ok validate => validate.valid && r.formatCheck.1
  | _, _, _ => false

/-- A module is both reported invalid by a successful `Validate` and reported
not formatted by `FormatCheck`. -/
def invalidAndUnformatted (r : StageResults) : Bool :=
  match r.get, r.newTerraform, r.validate with
  | .ok _, none, .ok validate => !validate.valid && !r.formatCheck.1
  | _, _, _ => false

/-- Number of modules with at least one failure condition. -/
def failedModules (modules : List (String × StageResults)) : Nat :=
  (modules.filter (fun m => !modulePasses m.2)).length

/-- The constraint strings handed to `getTerraformInstallerFromConstraints`, in
order. -/
def resolveCalls (effects : List Effect) : List String :=
  effects.filterMap (fun e => match e with
    | Effect.resolve c => some c
    | _ => none)

/-- The versions for which `installer.Install` was executed, in order. -/
def installCalls (effects : List Effect) : List String :=
  effects.filterMap (fun e => match e with
    | Effect.install v _ => some v
    | _ => none)

/-- The `/`-separated elements of a line without the last one (the file name),
as character lists. -/
def dirElems (line : String) : List (List Char) :=
  (splitOnChar '/' line.toList).dropLast

/-- Elements that `path.Clean` keeps as they are: not empty, not `.`, not `..`,
and without a `/` inside. -/
def CleanElems (elems : List (List Char)) : Prop :=
  ∀ c ∈ elems, c ≠ [] ∧ c ≠ ['.'] ∧ c ≠ ['.', '.'] ∧ '/' ∉ c

/-- Output of `path.Clean` from the elements it kept. -/
def renderPath (rooted : Bool) (out : List (List Char)) : List Char :=
  if rooted then '/' :: joinWithChar '/' out
  else if out = [] then ['.'] else joinWithChar '/' out

/-! ## Concrete inputs used by the examples below -/

/-- An installer outcome: the install succeeds and the executable is `terraform`
inside the install directory. -/
def installOk : String → Except String String :=
  fun dir => .ok (dir ++ "/terraform")

/-- An installer outcome: the download fails. -/
def installFails : String → Except String String :=
  fun _ => .error "download failed"

/-- Three serialised calls: `1.5.0` is installed, `1.4.0` fails, `1.5.0` is asked
for again at a moment where an install would fail. -/
def sampleCalls : List (String × (String → Except String String)) :=
  [("1.5.0", installOk), ("1.4.0", installFails), ("1.5.0", installFails)]

/-- Two calls for `1.5.0`, the install failing both times. -/
def failingTwice : List (String × (String → Except String String)) :=
  [("1.5.0", installFails), ("1.5.0", installFails)]

/-- Two calls for `1.5.0`, the install failing the first time only. -/
def failingThenOk : List (String × (String → Except String String)) :=
  [("1.5.0", installFails), ("1.5.0", installOk)]

/-- A release version `major.minor.patch` without pre-release suffix. -/
structure SemVer where
  major : Nat
  minor : Nat
  patch : Nat
  deriving DecidableEq, Repr

/-- Version precedence on `SemVer`: numeric comparison of the segments from the
left. -/
def SemVer.le (a b : SemVer) : Prop :=
  a.major < b.major ∨ (a.major = b.major ∧
    (a.minor < b.minor ∨ (a.minor = b.minor ∧ a.patch ≤ b.patch)))

instance : Preorder SemVer where
  le := SemVer.le
  le_refl a := by show SemVer.le a a; unfold SemVer.le; omega
  le_trans a b c := by
    intro hab hbc
    have h1 : SemVer.le a b := hab
    have h2 : SemVer.le b c := hbc
    show SemVer.le a c
    unfold SemVer.le at h1 h2 ⊢
    omega

instance (a b : SemVer) : Decidable (a ≤ b) :=
  inferInstanceAs (Decidable (a.major < b.major ∨ (a.major = b.major ∧
    (a.minor < b.minor ∨ (a.minor = b.minor ∧ a.patch ≤ b.patch)))))

/-- Version string of a `SemVer`. -/
def SemVer.versionString (v : SemVer) : String :=
  Nat.repr v.major ++ "." ++ Nat.repr v.minor ++ "." ++ Nat.repr v.patch

/-- A registry that answers every constraint with `2.0.0, 1.2.0`, in this
(descending) order. -/
def descendingRegistry : Unit → Except String (List SemVer) :=
  fun _ => .ok [⟨2, 0, 0⟩, ⟨1, 2, 0⟩]

/-- A registry that answers every constraint with `1.2.0, 2.0.0`, in ascending
order. -/
def ascendingRegistry : Unit → Except String (List SemVer) :=
  fun _ => .ok [⟨1, 2, 0⟩, ⟨2, 0, 0⟩]

/-- A constraint parser that accepts every string. -/
def acceptConstraint : String → Except String Unit :=
  fun _ => .ok ()

/-- Collaborators of `get` for a module: whether `versions.tf` is there, what
reading it gives, and what decoding gives; the registry is `ascendingRegistry`
and installs succeed. -/
def sampleEnv (present : Bool) (readFile : Except String String)
    (decode : Except String VersionsFile) : GetEnv Unit SemVer where
  stat := fun _ => present
  readFile := fun _ => readFile
  decode := fun _ => decode
  newConstraint := acceptConstraint
  listVersions := ascendingRegistry
  versionString := SemVer.versionString
  install := fun _ => installOk

/-- Path of an installed executable. -/
def sampleExec : String := "/tmp/terraform-module-checker/1.5.0/terraform"

/-- A module that passes every stage. -/
def passingModule : StageResults where
  get := .ok sampleExec
  newTerraform := none
  init := none
  validate := .ok { valid := true, diagnostics := [] }
  formatCheck := (true, [], none)

/-- A module that `Validate` reports invalid (one error diagnostic) and that
`FormatCheck` reports not formatted (one file). -/
def invalidUnformattedModule : StageResults where
  get := .ok sampleExec
  newTerraform := none
  init := none
  validate := .ok { valid := false, diagnostics :=
    [{ severity := "error", summary := "Unsupported argument", detail := "no argument named x",
       range := some { filename := "main.tf", line := 3 } }] }
  formatCheck := (false, ["main.tf"], none)

/-- A valid module for which invoking the format check fails: `tf.FormatCheck`
returns `false`, no files and an error. -/
def formatInvocationFails : StageResults where
  get := .ok sampleExec
  newTerraform := none
  init := none
  validate := .ok { valid := true, diagnostics := [] }
  formatCheck := (false, [], some "exit status 1")

/-- A module whose `Init` fails and whose `Validate` cannot be invoked. -/
def initAndValidateFail : StageResults where
  get := .ok sampleExec
  newTerraform := none
  init := some "exit status 1"
  validate := .error "exit status 1"
  formatCheck := (true, [], none)

/-- A module whose `Init` fails, reported invalid and formatted. -/
def initFailsInvalid : StageResults where
  get := .ok sampleExec
  newTerraform := none
  init := some "exit status 1"
  validate := .ok { valid := false, diagnostics := [] }
  formatCheck := (true, [], none)

/-- A diagnostic with a source location whose severity is
`tfjson.DiagnosticSeverityUnknown`. -/
def unknownDiagnostic : Diagnostic where
  severity := "unknown"
  summary := "summary"
  detail := "detail"
  range := some { filename := "main.tf", line := 1 }

/-- An error and a warning, both with a source location. -/
def sampleDiagnostics : List Diagnostic :=
  [{ severity := "error", summary := "Unsupported argument", detail := "no argument named x",
     range := some { filename := "main.tf", line := 3 } },
   { severity := "warning", summary := "Deprecated attribute", detail := "use y instead",
     range := some { filename := "outputs.tf", line := 7 } }]

/-- A warning without source location (`Range` is nil). -/
def rangelessWarning : Diagnostic where
  severity := "warning"
  summary := "Deprecated flag"
  detail := ""
  range := none

/-- A module reported valid with one warning that has no source location, and
whose files are not formatted. -/
def rangelessUnformatted : StageResults where
  get := .ok sampleExec
  newTerraform := none
  init := none
  validate := .ok { valid := true, diagnostics := [rangelessWarning] }
  formatCheck := (false, ["main.tf"], none)

/-- A module for which `installer.get` fails. -/
def failsAtGet : StageResults where
  get := .error "no matching versions for constraint: >99.0.0"
  newTerraform := none
  init := none
  validate := .ok { valid := true, diagnostics := [] }
  formatCheck := (true, [], none)

/-- A `git diff --name-only` output: two files of module `modules/vpc`, one of
`modules/db`, a file that is not Terraform, a Terraform file at the top. -/
def sampleDiff : String :=
  "modules/vpc/main.tf\nmodules/vpc/variables.tf\nREADME.md\nmodules/db/main.tf\nmain.tf\n"


/-! ## Lemmas on the toolchain map -/

theorem lookup_insert (ti : TerraformInstaller) (k v k' : String) :
    (ti.insert k v).lookup k' = if k' = k then some v else ti.lookup k' := by
  unfold TerraformInstaller.insert TerraformInstaller.lookup
  by_cases h : k' = k
  · subst h
    simp
  · have hk : ¬ k = k' := fun e => h e.symm
    have hp : (fun kv : String × String => (!decide (kv.1 = k)) && decide (kv.1 = k')) =
        fun kv => decide (kv.1 = k') := by
      funext kv
      by_cases h2 : kv.1 = k'
      · simp [h2, h]
      · simp [h2]
    simp [List.find?_cons, hk, h, List.find?_filter, hp]

theorem download_hit (install : String → Except String String) (ti : TerraformInstaller)
    (v p : String) (h : ti.lookup v = some p) :
    download install ti v = (ti, [], .ok p) := by
  simp [download, h]

theorem download_miss_ok (install : String → Except String String) (ti : TerraformInstaller)
    (v p : String) (h : ti.lookup v = none)
    (hi : install (pathJoin tempBinariesFolder v) = .ok p) :
    download install ti v =
      (ti.insert v p,
        [Effect.createFolder (pathJoin tempBinariesFolder v),
          Effect.install v (pathJoin tempBinariesFolder v)],
        .ok p) := by
  simp [download, h, hi, lookup_insert]

theorem download_miss_error (install : String → Except String String) (ti : TerraformInstaller)
    (v e : String) (h : ti.lookup v = none)
    (hi : install (pathJoin tempBinariesFolder v) = .error e) :
    download install ti v =
      (ti,
        [Effect.createFolder (pathJoin tempBinariesFolder v),
          Effect.install v (pathJoin tempBinariesFolder v)],
        .error e) := by
  simp [download, h, hi]

theorem download_other (install : String → Except String String) (ti : TerraformInstaller)
    (ver v : String) (hne : ver ≠ v) :
    (download install ti ver).1.lookup v = ti.lookup v ∧
      installCount v (download install ti ver).2.1 = 0 := by
  have hne2 : ¬ v = ver := fun e => hne e.symm
  cases h : ti.lookup ver with
  | some p => simp [download, h, installCount]
  | none =>
    cases hi : install (pathJoin tempBinariesFolder ver) with
    | error e => simp [download, h, hi, installCount, hne]
    | ok p => simp [download, h, hi, installCount, hne, lookup_insert, hne2]

theorem installCount_append (v : String) (a b : List Effect) :
    installCount v (a ++ b) = installCount v a + installCount v b := by
  simp [installCount, List.filter_append]

theorem downloadAll_length (calls : List (String × (String → Except String String))) :
    ∀ ti, (downloadAll ti calls).2.2.length = calls.length := by
  induction calls with
  | nil => intro ti; rfl
  | cons c cs ih => intro ti; simp [downloadAll, ih]

/-- Once version `v` is in the map with path `p`, no later call installs `v`,
every call for `v` returns `p`, and the entry stays. -/
theorem downloadAll_of_present (v p : String)
    (calls : List (String × (String → Except String String))) :
    ∀ ti : TerraformInstaller, ti.lookup v = some p →
      installCount v (downloadAll ti calls).2.1 = 0 ∧
      (downloadAll ti calls).1.lookup v = some p ∧
      ∀ cr ∈ calls.zip (downloadAll ti calls).2.2, cr.1.1 = v → cr.2 = .ok p := by
  induction calls with
  | nil => intro ti h; simp [downloadAll, installCount, h]
  | cons c cs ih =>
    intro ti h
    obtain ⟨ver, install⟩ := c
    by_cases hv : ver = v
    · subst hv
      have hd := download_hit install ti ver p h
      obtain ⟨h1, h2, h3⟩ := ih ti h
      simp only [downloadAll, hd, List.nil_append, List.zip_cons_cons, List.mem_cons]
      refine ⟨h1, h2, ?_⟩
      rintro cr (rfl | hmem) hcr
      · rfl
      · exact h3 cr hmem hcr
    · obtain ⟨ho1, ho2⟩ := download_other install ti ver v hv
      obtain ⟨h1, h2, h3⟩ := ih (download install ti ver).1 (ho1.trans h)
      simp only [downloadAll, installCount_append, ho2, h1, List.zip_cons_cons, List.mem_cons]
      refine ⟨trivial, h2, ?_⟩
      rintro cr (rfl | hmem) hcr
      · exact absurd hcr hv
      · exact h3 cr hmem hcr

/-- From a map without `v`: when the first call for `v` installs with success,
`v` is installed once, and every call for `v` returns that path. -/
theorem downloadAll_of_absent (v p : String)
    (calls : List (String × (String → Except String String))) :
    ∀ ti : TerraformInstaller, ti.lookup v = none →
      (∃ c, calls.find? (fun c => decide (c.1 = v)) = some c ∧
        c.2 (pathJoin tempBinariesFolder v) = .ok p) →
      installCount v (downloadAll ti calls).2.1 = 1 ∧
      (downloadAll ti calls).1.lookup v = some p ∧
      ∀ cr ∈ calls.zip (downloadAll ti calls).2.2, cr.1.1 = v → cr.2 = .ok p := by
  induction calls with
  | nil => intro ti _ h; simp at h
  | cons c cs ih =>
    intro ti h hfirst
    obtain ⟨ver, install⟩ := c
    by_cases hv : ver = v
    · subst hv
      obtain ⟨c, hc, hok⟩ := hfirst
      simp only [List.find?_cons, decide_True, Option.some.injEq] at hc
      subst hc
      have hd := download_miss_ok install ti ver p h hok
      obtain ⟨h1, h2, h3⟩ := downloadAll_of_present ver p cs (ti.insert ver p)
        (by simp [lookup_insert])
      simp only [downloadAll, hd, installCount_append, h1, List.zip_cons_cons, List.mem_cons]
      refine ⟨by simp [installCount], h2, ?_⟩
      rintro cr (rfl | hmem) hcr
      · rfl
      · exact h3 cr hmem hcr
    · obtain ⟨ho1, ho2⟩ := download_other install ti ver v hv
      have hfirst2 : ∃ c, cs.find? (fun c => decide (c.1 = v)) = some c ∧
          c.2 (pathJoin tempBinariesFolder v) = .ok p := by
        obtain ⟨c, hc, hok⟩ := hfirst
        simp only [List.find?_cons, hv, decide_False] at hc
        exact ⟨c, hc, hok⟩
      obtain ⟨h1, h2, h3⟩ := ih (download install ti ver).1 (ho1.trans h) hfirst2
      simp only [downloadAll, installCount_append, ho2, h1, List.zip_cons_cons, List.mem_cons]
      refine ⟨by simp, h2, ?_⟩
      rintro cr (rfl | hmem) hcr
      · exact absurd hcr hv
      · exact h3 cr hmem hcr

theorem downloadAll_others (v : String)
    (calls : List (String × (String → Except String String))) :
    ∀ ti : TerraformInstaller, (∀ c ∈ calls, c.1 ≠ v) →
      (downloadAll ti calls).1.lookup v = ti.lookup v := by
  induction calls with
  | nil => intro ti _; rfl
  | cons c cs ih =>
    intro ti h
    have h1 := (download_other c.2 ti c.1 v (h c (List.mem_cons_self _ _))).1
    have h2 := ih (download c.2 ti c.1).1 (fun d hd => h d (List.mem_cons_of_mem _ hd))
    simp only [downloadAll]
    exact h2.trans h1

/-- C3: in every sequence of serialised `download` calls starting from the empty
map, if the first call for version `v` installs it with success at path `p`,
then the install operation is executed exactly once for `v` in the whole
sequence, every call returns a value and every call for `v` returns `p` without
error; and a call for another version never changes the entry of `v`. -/
theorem download_installs_once
    (calls : List (String × (String → Except String String))) (v p : String)
    (hfirst : ∃ c, calls.find? (fun c => decide (c.1 = v)) = some c ∧
      c.2 (pathJoin tempBinariesFolder v) = .ok p) :
    installCount v (downloadAll TerraformInstaller.empty calls).2.1 = 1 ∧
    (downloadAll TerraformInstaller.empty calls).2.2.length = calls.length ∧
    (∀ cr ∈ calls.zip (downloadAll TerraformInstaller.empty calls).2.2,
      cr.1.1 = v → cr.2 = .ok p) ∧
    (∀ (install : String → Except String String) (ti : TerraformInstaller) (ver : String),
      ver ≠ v → (download install ti ver).1.lookup v = ti.lookup v) := by
  obtain ⟨h1, _, h3⟩ := downloadAll_of_absent v p calls TerraformInstaller.empty rfl hfirst
  exact ⟨h1, downloadAll_length calls _, h3,
    fun install ti ver hne => (download_other install ti ver v hne).1⟩

/-- Instance of C3 on `sampleCalls`: version `1.5.0` is installed once. -/
theorem download_installs_once_witness :
    installCount "1.5.0" (downloadAll TerraformInstaller.empty sampleCalls).2.1 = 1 ∧
    (downloadAll TerraformInstaller.empty sampleCalls).2.2 =
      [.ok "/tmp/terraform-module-checker/1.5.0/terraform", .error "download failed",
        .ok "/tmp/terraform-module-checker/1.5.0/terraform"] :=
  ⟨(download_installs_once sampleCalls "1.5.0" "/tmp/terraform-module-checker/1.5.0/terraform"
      ⟨("1.5.0", installOk), rfl, rfl⟩).1, rfl⟩

/-- C4 (as stated) fails: after a failed install of `1.5.0` the next call for
`1.5.0` executes the install again (two executions in `failingTwice`), and when
that second install succeeds the call returns its path, not the first error. -/
theorem download_failure_not_cached :
    installCount "1.5.0" (downloadAll TerraformInstaller.empty failingTwice).2.1 = 2 ∧
    (downloadAll TerraformInstaller.empty failingTwice).1 = TerraformInstaller.empty ∧
    (downloadAll TerraformInstaller.empty failingThenOk).2.2 =
      [.error "download failed", .ok "/tmp/terraform-module-checker/1.5.0/terraform"] ∧
    installCount "1.5.0" (downloadAll TerraformInstaller.empty failingThenOk).2.1 = 2 :=
  ⟨by decide, by decide, rfl, by decide⟩

/-- C4 (amended): when the install of an absent version `v` fails with `e`, the
call returns `e` and leaves the map as it was; after any calls for other
versions, the next call for `v` executes the install once more and returns what
that execution returns. -/
theorem download_failure_retried (install1 install2 : String → Except String String)
    (ti : TerraformInstaller) (v e : String)
    (mid : List (String × (String → Except String String)))
    (habs : ti.lookup v = none)
    (hfail : install1 (pathJoin tempBinariesFolder v) = .error e)
    (hmid : ∀ c ∈ mid, c.1 ≠ v) :
    (download install1 ti v).2.2 = .error e ∧
    (download install1 ti v).1 = ti ∧
    installCount v (download install1 ti v).2.1 = 1 ∧
    installCount v
      (download install2 (downloadAll (download install1 ti v).1 mid).1 v).2.1 = 1 ∧
    (download install2 (downloadAll (download install1 ti v).1 mid).1 v).2.2 =
      install2 (pathJoin tempBinariesFolder v) := by
  have h1 := download_miss_error install1 ti v e habs hfail
  have h2 : (downloadAll ti mid).1.lookup v = none :=
    (downloadAll_others v mid ti hmid).trans habs
  rw [h1]
  refine ⟨rfl, rfl, by simp [installCount], ?_, ?_⟩
  · cases hi : install2 (pathJoin tempBinariesFolder v) with
    | error e2 => rw [download_miss_error install2 _ v e2 h2 hi]; simp [installCount]
    | ok p2 => rw [download_miss_ok install2 _ v p2 h2 hi]; simp [installCount]
  · cases hi : install2 (pathJoin tempBinariesFolder v) with
    | error e2 => rw [download_miss_error install2 _ v e2 h2 hi]
    | ok p2 => rw [download_miss_ok install2 _ v p2 h2 hi]

/-- Instance of the amended C4: a failed install of `1.5.0`, a call for `1.4.0`,
then a call for `1.5.0` that installs with success. -/
theorem download_failure_retried_witness :
    (download installFails TerraformInstaller.empty "1.5.0").2.2 = .error "download failed" ∧
    (download installOk
      (downloadAll (download installFails TerraformInstaller.empty "1.5.0").1
        [("1.4.0", installOk)]).1 "1.5.0").2.2 =
      .ok "/tmp/terraform-module-checker/1.5.0/terraform" := by
  have h := download_failure_retried installFails installOk TerraformInstaller.empty "1.5.0"
    "download failed" [("1.4.0", installOk)] rfl rfl (by decide)
  exact ⟨h.1, h.2.2.2.2.trans rfl⟩

/-! ## Version resolution and `get` -/

theorem resolver_of_list {C V : Type} (newConstraint : String → Except String C)
    (listVersions : C → Except String (List V)) (constraints : String) (c : C) (vs : List V)
    (hc : newConstraint constraints = .ok c) (hl : listVersions c = .ok vs) :
    (vs = [] → getTerraformInstallerFromConstraints newConstraint listVersions constraints =
        .error ("no matching versions for constraint: " ++ constraints)) ∧
    (∀ h : vs ≠ [], getTerraformInstallerFromConstraints newConstraint listVersions constraints =
        .ok (vs.getLast h)) := by
  constructor
  · intro h
    subst h
    simp [getTerraformInstallerFromConstraints, hc, hl]
  · intro h
    have hlen : vs.length ≠ 0 := by simpa using h
    simp only [getTerraformInstallerFromConstraints, hc, hl, hlen, dite_false]
    rw [List.getLast_eq_getElem]
    rfl

theorem pairwise_le_getLast {V : Type} [Preorder V] :
    ∀ (vs : List V) (h : vs ≠ []), vs.Pairwise (fun a b => a ≤ b) → ∀ v ∈ vs, v ≤ vs.getLast h
  | [], h, _, _, _ => absurd rfl h
  | [a], _, _, v, hv => by
    simp only [List.mem_singleton] at hv
    subst hv
    exact le_refl _
  | a :: b :: rest, _, hp, v, hv => by
    rw [List.getLast_cons (List.cons_ne_nil b rest)]
    rcases List.mem_cons.1 hv with rfl | hv
    · exact (List.pairwise_cons.1 hp).1 _ (List.getLast_mem _)
    · exact pairwise_le_getLast (b :: rest) _ (List.pairwise_cons.1 hp).2 v hv

/-- C2 (as stated) fails: for the registry answer `2.0.0, 1.2.0` the resolver
returns `1.2.0`, the last element, although `2.0.0` is in the list and is not
below `1.2.0`. -/
theorem resolver_not_maximum :
    getTerraformInstallerFromConstraints acceptConstraint descendingRegistry ">1.0.0" =
      .ok (⟨1, 2, 0⟩ : SemVer) ∧
    ¬ ((⟨2, 0, 0⟩ : SemVer) ≤ ⟨1, 2, 0⟩) :=
  ⟨rfl, by decide⟩

/-- C2 (amended): for a constraint that parses and a registry answer `vs`, the
resolver returns the "no matching versions" error when `vs` is empty and the
LAST element of `vs` otherwise; when `vs` is in ascending order this last
element is a maximum of `vs`. -/
theorem resolver_returns_last {C V : Type} [Preorder V]
    (newConstraint : String → Except String C)
    (listVersions : C → Except String (List V)) (constraints : String) (c : C) (vs : List V)
    (hc : newConstraint constraints = .ok c) (hl : listVersions c = .ok vs) :
    (vs = [] → getTerraformInstallerFromConstraints newConstraint listVersions constraints =
        .error ("no matching versions for constraint: " ++ constraints)) ∧
    (∀ h : vs ≠ [],
      getTerraformInstallerFromConstraints newConstraint listVersions constraints =
        .ok (vs.getLast h) ∧
      (vs.Pairwise (fun a b => a ≤ b) → ∀ v ∈ vs, v ≤ vs.getLast h)) := by
  obtain ⟨h1, h2⟩ := resolver_of_list newConstraint listVersions constraints c vs hc hl
  exact ⟨h1, fun h => ⟨h2 h, pairwise_le_getLast vs h⟩⟩

/-- Instance of the amended C2: for the ascending answer `1.2.0, 2.0.0` the
resolver returns `2.0.0`, which is above both. -/
theorem resolver_returns_last_witness :
    getTerraformInstallerFromConstraints acceptConstraint ascendingRegistry ">1.0.0" =
      .ok (⟨2, 0, 0⟩ : SemVer) ∧
    ∀ v ∈ [(⟨1, 2, 0⟩ : SemVer), ⟨2, 0, 0⟩], v ≤ (⟨2, 0, 0⟩ : SemVer) :=
  have h := (resolver_returns_last acceptConstraint ascendingRegistry ">1.0.0" ()
    [(⟨1, 2, 0⟩ : SemVer), ⟨2, 0, 0⟩] rfl rfl).2 (by simp)
  ⟨h.1, h.2 (by decide)⟩

theorem download_effects (install : String → Except String String) (ti : TerraformInstaller)
    (v : String) : resolveCalls (download install ti v).2.1 = [] := by
  cases h : ti.lookup v with
  | some p => simp [download, h, resolveCalls]
  | none =>
    cases hi : install (pathJoin tempBinariesFolder v) with
    | error e => simp [download, h, hi, resolveCalls]
    | ok p => simp [download, h, hi, resolveCalls]

theorem resolveAndDownload_resolveCalls {C V : Type} (env : GetEnv C V)
    (ti : TerraformInstaller) (constraints : String) :
    resolveCalls (resolveAndDownload env ti constraints).2.1 = [constraints] := by
  unfold resolveAndDownload
  cases hr : getTerraformInstallerFromConstraints env.newConstraint env.listVersions
      constraints with
  | error e => rfl
  | ok installer =>
    have hd := download_effects (env.install installer) ti (env.versionString installer)
    simp only [resolveCalls, List.filterMap_cons] at hd ⊢
    rw [hd]

/-- When the constraint is read with success, `get` is the resolution and
download for the constraint it computed, after the file operations. -/
theorem get_of_declared {C V : Type} (env : GetEnv C V) (ti : TerraformInstaller)
    (workDir : String) (pre : List Effect) (declared : String)
    (hfile : (if env.stat (pathJoin workDir "versions.tf") then
        (Effect.stat (pathJoin workDir "versions.tf") ::
          (getConstraintsFromFile env.readFile env.decode (pathJoin workDir "versions.tf")).1,
          (getConstraintsFromFile env.readFile env.decode (pathJoin workDir "versions.tf")).2)
      else ([Effect.stat (pathJoin workDir "versions.tf")], Except.ok "")) = (pre, .ok declared)) :
    get env ti workDir =
      ((resolveAndDownload env ti (if declared = "" then defaultConstraints else declared)).1,
        pre ++
          (resolveAndDownload env ti (if declared = "" then defaultConstraints else declared)).2.1,
        (resolveAndDownload env ti (if declared = "" then defaultConstraints else declared)).2.2) := by
  simp only [get, hfile]

/-- C6: the constraint string `get` hands to version resolution is `">1.0.0"`
when `versions.tf` is absent, `">1.0.0"` when it decodes with an empty
`required_version`, the declared string when that is not empty: in each case
`get` returns what resolution and download give for that string, and the
resolver is called once, with that string.  When the file is there and reading
or decoding it fails, `get` returns that error, leaves the map untouched, and
neither resolves nor installs. -/
theorem get_constraints {C V : Type} (env : GetEnv C V) (ti : TerraformInstaller)
    (workDir : String) :
    (env.stat (pathJoin workDir "versions.tf") = false →
      resolveCalls (get env ti workDir).2.1 = [">1.0.0"] ∧
      (get env ti workDir).1 = (resolveAndDownload env ti ">1.0.0").1 ∧
      (get env ti workDir).2.2 = (resolveAndDownload env ti ">1.0.0").2.2) ∧
    (∀ file vf, env.stat (pathJoin workDir "versions.tf") = true →
      env.readFile (pathJoin workDir "versions.tf") = .ok file → env.decode file = .ok vf →
      (vf.versionConstraints = "" →
        resolveCalls (get env ti workDir).2.1 = [">1.0.0"] ∧
        (get env ti workDir).1 = (resolveAndDownload env ti ">1.0.0").1 ∧
        (get env ti workDir).2.2 = (resolveAndDownload env ti ">1.0.0").2.2) ∧
      (vf.versionConstraints ≠ "" →
        resolveCalls (get env ti workDir).2.1 = [vf.versionConstraints] ∧
        (get env ti workDir).1 = (resolveAndDownload env ti vf.versionConstraints).1 ∧
        (get env ti workDir).2.2 = (resolveAndDownload env ti vf.versionConstraints).2.2)) ∧
    (∀ e, env.stat (pathJoin workDir "versions.tf") = true →
      (env.readFile (pathJoin workDir "versions.tf") = .error e ∨
        ∃ file, env.readFile (pathJoin workDir "versions.tf") = .ok file ∧
          env.decode file = .error e) →
      (get env ti workDir).2.2 = .error e ∧ (get env ti workDir).1 = ti ∧
      resolveCalls (get env ti workDir).2.1 = [] ∧
      installCalls (get env ti workDir).2.1 = []) := by
  have hcalls : ∀ (pre : List Effect) (c : String), resolveCalls pre = [] →
      resolveCalls (pre ++ (resolveAndDownload env ti c).2.1) = [c] := by
    intro pre c hpre
    have h := resolveAndDownload_resolveCalls env ti c
    unfold resolveCalls at hpre h ⊢
    rw [List.filterMap_append, hpre, h]
    rfl
  refine ⟨?_, ?_, ?_⟩
  · intro hs
    have hg := get_of_declared env ti workDir [Effect.stat (pathJoin workDir "versions.tf")]
      "" (by simp [hs])
    have hd : (if ("" : String) = "" then defaultConstraints else "") = ">1.0.0" := rfl
    rw [hd] at hg
    rw [hg]
    exact ⟨hcalls _ _ rfl, rfl, rfl⟩
  · intro file vf hs hr hd
    have hg := get_of_declared env ti workDir
      [Effect.stat (pathJoin workDir "versions.tf"),
        Effect.readFile (pathJoin workDir "versions.tf"), Effect.decode file]
      vf.versionConstraints (by simp [hs, getConstraintsFromFile, hr, hd])
    constructor
    · intro he
      have hc : (if vf.versionConstraints = "" then defaultConstraints
          else vf.versionConstraints) = ">1.0.0" := by rw [if_pos he]; rfl
      rw [hc] at hg
      rw [hg]
      exact ⟨hcalls _ _ rfl, rfl, rfl⟩
    · intro hne
      rw [if_neg hne] at hg
      rw [hg]
      exact ⟨hcalls _ _ rfl, rfl, rfl⟩
  · rintro e hs (hr | ⟨file, hr, hd⟩)
    · simp [get, hs, getConstraintsFromFile, hr, resolveCalls, installCalls]
    · simp [get, hs, getConstraintsFromFile, hr, hd, resolveCalls, installCalls]

/-- Instances of C6: a module without `versions.tf`, one with an empty
`required_version`, one declaring `~> 1.3`, one whose file does not decode. -/
theorem get_constraints_witness :
    resolveCalls (get (sampleEnv false (.error "no such file") (.error "unused"))
      TerraformInstaller.empty "/ws/mod").2.1 = [">1.0.0"] ∧
    resolveCalls (get (sampleEnv true (.ok "terraform \x7b\x7d") (.ok ⟨""⟩))
      TerraformInstaller.empty "/ws/mod").2.1 = [">1.0.0"] ∧
    resolveCalls (get (sampleEnv true (.ok "terraform \x7b required_version = \"~> 1.3\" \x7d")
      (.ok ⟨"~> 1.3"⟩)) TerraformInstaller.empty "/ws/mod").2.1 = ["~> 1.3"] ∧
    (get (sampleEnv true (.ok "terraform \x7b") (.error "Unclosed configuration block"))
      TerraformInstaller.empty "/ws/mod").2.2 = .error "Unclosed configuration block" :=
  ⟨((get_constraints (sampleEnv false (.error "no such file") (.error "unused"))
      TerraformInstaller.empty "/ws/mod").1 rfl).1,
   (((get_constraints (sampleEnv true (.ok "terraform \x7b\x7d") (.ok ⟨""⟩))
      TerraformInstaller.empty "/ws/mod").2.1 "terraform \x7b\x7d" ⟨""⟩ rfl rfl rfl).1 rfl).1,
   (((get_constraints (sampleEnv true (.ok "terraform \x7b required_version = \"~> 1.3\" \x7d")
      (.ok ⟨"~> 1.3"⟩)) TerraformInstaller.empty "/ws/mod").2.1
      "terraform \x7b required_version = \"~> 1.3\" \x7d" ⟨"~> 1.3"⟩ rfl rfl rfl).2 (by decide)).1,
   ((get_constraints (sampleEnv true (.ok "terraform \x7b") (.error "Unclosed configuration block"))
      TerraformInstaller.empty "/ws/mod").2.2 "Unclosed configuration block" rfl
      (Or.inr ⟨"terraform \x7b", rfl, rfl⟩)).1⟩

/-! ## The module task and the failure counter -/

theorem countAdds_append (a b : List Action) :
    countAdds (a ++ b) = countAdds a + countAdds b := by
  simp [countAdds, List.filter_append]

theorem countAdds_cons (a : Action) (l : List Action) :
    countAdds (a :: l) = (if a = Action.addErrCount then 1 else 0) + countAdds l := by
  by_cases h : a = Action.addErrCount
  · simp [countAdds, h, Nat.add_comm]
  · simp [countAdds, h]

/-- With every `Range` present the loop logs, in order, one record for each
diagnostic of severity "error" or "warning", and the task goes on. -/
theorem diagnosticsLoop_of_ranges (module : String) (rest : List Action) :
    ∀ ds : List Diagnostic, ds.all (fun d => d.range.isSome) = true →
      diagnosticsLoop module rest ds =
        (ds.filter (fun d => decide (d.severity = "error") || decide (d.severity = "warning"))).map
          (fun d => Action.log
            { level := if d.severity = "error" then Level.error else Level.warn,
              module := module,
              filename := d.range.map (fun rg => rg.filename),
              line := d.range.map (fun rg => rg.line),
              message := if d.severity = "error" then d.detail else d.summary }) ++ rest
  | [], _ => rfl
  | d :: ds, h => by
    simp only [List.all_cons, Bool.and_eq_true] at h
    have ih := diagnosticsLoop_of_ranges module rest ds h.2
    cases hr : d.range with
    | none => rw [hr] at h; simp at h
    | some rg =>
      simp only [diagnosticsLoop, hr, ih, diagnosticActions, diagnosticSeverityError,
        diagnosticSeverityWarning]
      by_cases he : d.severity = "error"
      · simp [he, List.filter_cons, hr]
      · by_cases hw : d.severity = "warning"
        · simp [he, hw, List.filter_cons, hr]
        · simp [he, hw, List.filter_cons]

/-- A diagnostic without `Range` ends the loop in a panic: the remainder of the
task is not executed. -/
theorem diagnosticsLoop_of_rangeless (module : String) (rest : List Action) :
    ∀ ds : List Diagnostic, ds.all (fun d => d.range.isSome) = false →
      Action.panic ∈ diagnosticsLoop module rest ds ∧
      stagesCalled (diagnosticsLoop module rest ds) = [] ∧
      countAdds (diagnosticsLoop module rest ds) = 0
  | [], h => by simp at h
  | d :: ds, h => by
    cases hr : d.range with
    | none => simp [diagnosticsLoop, hr, stagesCalled, countAdds]
    | some rg =>
      have h2 : ds.all (fun d => d.range.isSome) = false := by
        simpa [List.all_cons, hr] using h
      obtain ⟨i1, i2, i3⟩ := diagnosticsLoop_of_rangeless module rest ds h2
      have hs : stagesCalled (diagnosticActions module d rg) = [] := by
        unfold diagnosticActions
        split_ifs <;> rfl
      have hc : countAdds (diagnosticActions module d rg) = 0 := by
        unfold diagnosticActions
        split_ifs <;> simp [countAdds]
      simp only [diagnosticsLoop, hr]
      refine ⟨List.mem_append_right _ i1, ?_, ?_⟩
      · unfold stagesCalled at hs i2 ⊢
        rw [List.filterMap_append, hs, i2]
        rfl
      · rw [countAdds_append, hc, i3]

/-- The task of a module whose toolchain and client are obtained, whose
`Validate` returns a result, and whose diagnostics all carry a `Range`. -/
theorem moduleTask_of_ranges (module : String) (r : StageResults) (execPath : String)
    (validate : ValidateOutput)
    (hget : r.get = .ok execPath) (hnew : r.newTerraform = none)
    (hval : r.validate = .ok validate)
    (hranges : validate.diagnostics.all (fun d => d.range.isSome) = true) :
    moduleTask module r =
      [Action.call Stage.get, Action.call Stage.newTerraform] ++ initStage module r ++
        [Action.call Stage.validate] ++
        (if validate.valid then [] else [Action.addErrCount]) ++
        (validate.diagnostics.filter
          (fun d => decide (d.severity = "error") || decide (d.severity = "warning"))).map
          (fun d => Action.log
            { level := if d.severity = "error" then Level.error else Level.warn,
              module := module,
              filename := d.range.map (fun rg => rg.filename),
              line := d.range.map (fun rg => rg.line),
              message := if d.severity = "error" then d.detail else d.summary }) ++
        formatStage module r.formatCheck := by
  simp only [moduleTask, hget, hnew, validateStage, hval,
    diagnosticsLoop_of_ranges module _ validate.diagnostics hranges]
  cases validate.valid <;> simp

theorem countAdds_map_log {α : Type} (l : List α) (f : α → LogEntry) :
    countAdds (l.map (fun d => Action.log (f d))) = 0 := by
  induction l with
  | nil => rfl
  | cons a l ih => rw [List.map_cons, countAdds_cons, ih]; simp

theorem countAdds_formatStage (module : String) (fc : Bool × List String × Option String) :
    countAdds (formatStage module fc) = if fc.1 then 0 else 1 := by
  unfold formatStage
  cases fc.1 <;> simp [countAdds, taskLog]

theorem countAdds_initStage (module : String) (r : StageResults) :
    countAdds (initStage module r) = 0 := by
  unfold initStage
  cases r.init <;> simp [countAdds, taskLog]

/-- What a module task adds to the counter when every diagnostic carries a
`Range`: nothing when the module passes, two when it is both invalid and
unformatted, one otherwise. -/
theorem taskAdds_eq (module : String) (r : StageResults) (hr : rangesPresent r = true) :
    taskAdds module r =
      if modulePasses r then 0 else if invalidAndUnformatted r then 2 else 1 := by
  cases hg : r.get with
  | error e => simp [taskAdds, moduleTask, modulePasses, invalidAndUnformatted, hg, countAdds,
      taskLog]
  | ok p =>
    cases hn : r.newTerraform with
    | some e => simp [taskAdds, moduleTask, modulePasses, invalidAndUnformatted, hg, hn,
        countAdds, taskLog]
    | none =>
      cases hv : r.validate with
      | error e =>
        simp only [taskAdds, moduleTask, modulePasses, invalidAndUnformatted, hg, hn, hv,
          validateStage, countAdds_cons, countAdds_append, countAdds_initStage, taskLog]
        simp [countAdds]
      | ok validate =>
        have hranges : validate.diagnostics.all (fun d => d.range.isSome) = true := by
          simpa [rangesPresent, hv] using hr
        unfold taskAdds
        rw [moduleTask_of_ranges module r p validate hg hn hv hranges]
        simp only [countAdds_append, countAdds_map_log, countAdds_formatStage,
          countAdds_initStage, modulePasses, invalidAndUnformatted, hg, hn, hv]
        obtain ⟨valid, diagnostics⟩ := validate
        cases valid <;> cases r.formatCheck.1 <;> simp [countAdds]

/-- A task panics exactly when it reaches the diagnostics loop with a
diagnostic that has no `Range`. -/
theorem panic_mem_moduleTask (module : String) (r : StageResults) :
    Action.panic ∈ moduleTask module r ↔
      ∃ execPath validate, r.get = .ok execPath ∧ r.newTerraform = none ∧
        r.validate = .ok validate ∧
        validate.diagnostics.all (fun d => d.range.isSome) = false := by
  have hinit : Action.panic ∉ initStage module r := by
    unfold initStage
    cases r.init <;> simp [taskLog]
  have hfmt : Action.panic ∉ formatStage module r.formatCheck := by
    unfold formatStage
    cases r.formatCheck.1 <;> simp [taskLog]
  cases hg : r.get with
  | error e => simp [moduleTask, hg, taskLog]
  | ok p =>
    cases hn : r.newTerraform with
    | some e => simp [moduleTask, hg, hn, taskLog]
    | none =>
      cases hv : r.validate with
      | error e => simp [moduleTask, hg, hn, hv, validateStage, hinit, taskLog]
      | ok validate =>
        cases hall : validate.diagnostics.all (fun d => d.range.isSome) with
        | true =>
          have hno : Action.panic ∉ moduleTask module r := by
            rw [moduleTask_of_ranges module r p validate hg hn hv hall]
            simp only [List.mem_append, hinit, hfmt, or_false, false_or]
            cases validate.valid <;> simp
          constructor
          · intro h; exact absurd h hno
          · rintro ⟨_, v2, _, _, hv2, hall2⟩
            injection hv2 with hv2
            subst hv2
            rw [hall] at hall2
            exact absurd hall2 (by decide)
        | false =>
          have hp := (diagnosticsLoop_of_rangeless module (formatStage module r.formatCheck)
            validate.diagnostics hall).1
          constructor
          · intro _; exact ⟨p, validate, rfl, rfl, rfl, hall⟩
          · intro _
            simp [moduleTask, hg, hn, validateStage, hv, hp]

theorem not_panic_of_rangesPresent (module : String) (r : StageResults)
    (hr : rangesPresent r = true) : Action.panic ∉ moduleTask module r := by
  rw [panic_mem_moduleTask]
  rintro ⟨p, validate, _, _, hv, hall⟩
  simp [rangesPresent, hv] at hr
  simp at hall
  obtain ⟨d, hd, hnone⟩ := hall
  have := hr d hd
  rw [hnone] at this
  simp at this

theorem modulePasses_iff (r : StageResults) :
    modulePasses r = true ↔
      (∃ execPath, r.get = .ok execPath) ∧ r.newTerraform = none ∧
      (∃ validate, r.validate = .ok validate ∧ validate.valid = true) ∧
      r.formatCheck.1 = true := by
  unfold modulePasses
  cases hg : r.get with
  | error e => simp
  | ok p =>
    cases hn : r.newTerraform with
    | some e => simp
    | none =>
      cases hv : r.validate with
      | error e => simp
      | ok validate => simp

theorem wrapInt32_of_small (x : Int) (h0 : 0 ≤ x) (h1 : x < 2 ^ 31) : wrapInt32 x = x := by
  unfold wrapInt32
  norm_num at h1 ⊢
  omega

theorem wrapInt32_succ (x : Int) : wrapInt32 (wrapInt32 x + 1) = wrapInt32 (x + 1) := by
  unfold wrapInt32
  norm_num
  omega

/-- The counter after a sequence of actions is the number of its increments,
wrapped to `int32`. -/
theorem foldl_stepErrCount (trace : List Action) :
    ∀ c : Int, trace.foldl stepErrCount (wrapInt32 c) = wrapInt32 (c + countAdds trace) := by
  induction trace with
  | nil => intro c; simp [countAdds]
  | cons a rest ih =>
    intro c
    rw [countAdds_cons]
    by_cases ha : a = Action.addErrCount
    · subst ha
      simp only [List.foldl_cons, stepErrCount, wrapInt32_succ, if_true, Nat.cast_add,
        Nat.cast_one]
      rw [ih (c + 1)]
      congr 1
      omega
    · have hs : stepErrCount (wrapInt32 c) a = wrapInt32 c := by
        cases a <;> first | rfl | exact absurd rfl ha
      simp only [List.foldl_cons, hs, ha, if_false, Nat.cast_add, Nat.cast_zero, zero_add]
      exact ih c

theorem finalErrCount_wrap (trace : List Action) :
    finalErrCount trace = wrapInt32 (countAdds trace) := by
  have h := foldl_stepErrCount trace 0
  have h0 : wrapInt32 0 = 0 := by decide
  rw [h0] at h
  simpa [finalErrCount] using h

theorem finalErrCount_eq (trace : List Action) (h : countAdds trace < 2 ^ 31) :
    finalErrCount trace = countAdds trace := by
  rw [finalErrCount_wrap]
  apply wrapInt32_of_small
  · exact Int.natCast_nonneg _
  · exact_mod_cast h

theorem shuffle_countAdds {l r t : List Action} (h : Shuffle l r t) :
    countAdds t = countAdds l + countAdds r := by
  induction h with
  | nil => rfl
  | left a _ ih => rw [countAdds_cons, countAdds_cons, ih]; omega
  | right a _ ih => rw [countAdds_cons, countAdds_cons, ih]; omega

theorem interleaving_countAdds {tasks : List (List Action)} {trace : List Action}
    (h : Interleaving tasks trace) : countAdds trace = (tasks.map countAdds).sum := by
  induction h with
  | nil => rfl
  | cons hs _ ih => rw [shuffle_countAdds hs, ih]; simp

theorem shuffle_mem {α : Type} {l r t : List α} (h : Shuffle l r t) (a : α) :
    a ∈ t ↔ a ∈ l ∨ a ∈ r := by
  induction h with
  | nil => simp
  | left b _ ih => simp only [List.mem_cons, ih]; tauto
  | right b _ ih => simp only [List.mem_cons, ih]; tauto

theorem interleaving_mem {α : Type} {tasks : List (List α)} {trace : List α}
    (h : Interleaving tasks trace) (a : α) : a ∈ trace ↔ ∃ t ∈ tasks, a ∈ t := by
  induction h with
  | nil => simp
  | cons hs _ ih => rw [shuffle_mem hs, ih]; simp

theorem shuffle_append {α : Type} : ∀ l r : List α, Shuffle l r (l ++ r)
  | [], [] => Shuffle.nil
  | [], b :: r => Shuffle.right b (shuffle_append [] r)
  | a :: l, r => Shuffle.left a (shuffle_append l r)

theorem interleaving_flatten {α : Type} : ∀ tasks : List (List α), Interleaving tasks tasks.flatten
  | [] => Interleaving.nil
  | t :: ts => by
    rw [List.flatten_cons]
    exact Interleaving.cons (shuffle_append t ts.flatten) (interleaving_flatten ts)

theorem cutAtPanic_of_not_mem (l : List Action) (h : Action.panic ∉ l) : cutAtPanic l = l := by
  induction l with
  | nil => rfl
  | cons a rest ih =>
    have ha : a ≠ Action.panic := fun e => h (e ▸ List.mem_cons_self _ _)
    simp [cutAtPanic, ha, ih (fun hm => h (List.mem_cons_of_mem _ hm))]

theorem panic_mem_cutAtPanic (l : List Action) :
    Action.panic ∈ cutAtPanic l ↔ Action.panic ∈ l := by
  induction l with
  | nil => simp [cutAtPanic]
  | cons a rest ih =>
    by_cases ha : a = Action.panic
    · simp [cutAtPanic, ha]
    · have ha2 : ¬ Action.panic = a := fun e => ha e.symm
      simp [cutAtPanic, ha, ha2, ih]

/-- The sequential execution is one of the executions of `main`. -/
theorem sequentialRun_mainRun (modules : List (String × StageResults)) :
    MainRun modules (sequentialRun modules) :=
  ⟨_, interleaving_flatten _, rfl⟩

/-- When every diagnostic carries a `Range` no task panics: an execution holds
all the actions of all the tasks. -/
theorem mainRun_of_ranges (modules : List (String × StageResults)) (trace : List Action)
    (hranges : ∀ m ∈ modules, rangesPresent m.2 = true) (hrun : MainRun modules trace) :
    Interleaving (modules.map (fun m => moduleTask m.1 m.2)) trace ∧ Action.panic ∉ trace := by
  obtain ⟨merged, hint, rfl⟩ := hrun
  have hno : Action.panic ∉ merged := by
    rw [interleaving_mem hint]
    rintro ⟨t, ht, hp⟩
    obtain ⟨m, hm, rfl⟩ := List.mem_map.1 ht
    exact not_panic_of_rangesPresent m.1 m.2 (hranges m hm) hp
  rw [cutAtPanic_of_not_mem merged hno]
  exact ⟨hint, hno⟩

/-- When a task reaches a diagnostic without `Range`, every execution ends in a
panic: `os.Exit(int(errCount))` is not reached. -/
theorem mainRun_panics (modules : List (String × StageResults)) (trace : List Action)
    (hrun : MainRun modules trace)
    (hp : ∃ m ∈ modules, Action.panic ∈ moduleTask m.1 m.2) :
    processOutcome trace = Outcome.panicked := by
  obtain ⟨merged, hint, rfl⟩ := hrun
  obtain ⟨m, hm, hpm⟩ := hp
  have : Action.panic ∈ merged :=
    (interleaving_mem hint _).2 ⟨_, List.mem_map_of_mem _ hm, hpm⟩
  simp [processOutcome, panic_mem_cutAtPanic, this]

theorem sum_taskAdds (modules : List (String × StageResults))
    (hranges : ∀ m ∈ modules, rangesPresent m.2 = true) :
    (modules.map (fun m => taskAdds m.1 m.2)).sum =
      failedModules modules + (modules.filter (fun m => invalidAndUnformatted m.2)).length := by
  induction modules with
  | nil => rfl
  | cons m ms ih =>
    have himp : invalidAndUnformatted m.2 = true → modulePasses m.2 = false := by
      unfold invalidAndUnformatted modulePasses
      cases m.2.get <;> cases m.2.newTerraform <;> cases m.2.validate <;> simp
      rename_i validate
      obtain ⟨valid, diagnostics⟩ := validate
      cases valid <;> simp
    simp only [List.map_cons, List.sum_cons, ih (fun x hx => hranges x (List.mem_cons_of_mem _ hx))]
    rw [taskAdds_eq m.1 m.2 (hranges m (List.mem_cons_self _ _))]
    simp only [failedModules, List.filter_cons]
    cases hp : modulePasses m.2 <;> cases hi : invalidAndUnformatted m.2 <;> simp_all <;> omega

theorem invalidAndUnformatted_le (modules : List (String × StageResults)) :
    (modules.filter (fun m => invalidAndUnformatted m.2)).length ≤ failedModules modules := by
  induction modules with
  | nil => simp [failedModules]
  | cons m ms ih =>
    have himp : invalidAndUnformatted m.2 = true → modulePasses m.2 = false := by
      unfold invalidAndUnformatted modulePasses
      cases m.2.get <;> cases m.2.newTerraform <;> cases m.2.validate <;> simp
      rename_i validate
      obtain ⟨valid, diagnostics⟩ := validate
      cases valid <;> simp
    simp only [failedModules, List.filter_cons] at ih ⊢
    cases hp : modulePasses m.2 <;> cases hi : invalidAndUnformatted m.2 <;> simp_all
    omega

theorem failedModules_le_length (modules : List (String × StageResults)) :
    failedModules modules ≤ modules.length :=
  List.length_filter_le _ _

theorem failedModules_eq_zero (modules : List (String × StageResults)) :
    failedModules modules = 0 ↔ ∀ m ∈ modules, modulePasses m.2 = true := by
  simp [failedModules, List.filter_eq_nil_iff]

/-- The exit value of an execution without panic, for fewer than 2^30 modules. -/
theorem mainRun_outcome (modules : List (String × StageResults)) (trace : List Action)
    (hbound : modules.length < 2 ^ 30)
    (hranges : ∀ m ∈ modules, rangesPresent m.2 = true) (hrun : MainRun modules trace) :
    processOutcome trace = Outcome.exit
      ((failedModules modules +
        (modules.filter (fun m => invalidAndUnformatted m.2)).length : Nat) : Int) := by
  obtain ⟨hint, hno⟩ := mainRun_of_ranges modules trace hranges hrun
  have hsum : countAdds trace = failedModules modules +
      (modules.filter (fun m => invalidAndUnformatted m.2)).length := by
    rw [interleaving_countAdds hint, ← sum_taskAdds modules hranges, List.map_map]
    rfl
  have h1 := invalidAndUnformatted_le modules
  have h2 := failedModules_le_length modules
  have hlt : countAdds trace < 2 ^ 31 := by
    norm_num at hbound ⊢
    omega
  simp only [processOutcome, hno, if_false]
  rw [finalErrCount_eq trace hlt, hsum]

/-- The sequential execution of `n` copies of a module whose task does not
panic exits with the sum of the increments wrapped to `int32`. -/
theorem sequentialRun_replicate (n : Nat) (m : String × StageResults)
    (hp : Action.panic ∉ moduleTask m.1 m.2) :
    processOutcome (sequentialRun (List.replicate n m)) =
      Outcome.exit (wrapInt32 ((n * taskAdds m.1 m.2 : Nat) : Int)) := by
  have hint := interleaving_flatten ((List.replicate n m).map (fun m => moduleTask m.1 m.2))
  have hno : Action.panic ∉ ((List.replicate n m).map (fun m => moduleTask m.1 m.2)).flatten := by
    rw [interleaving_mem hint]
    rintro ⟨t, ht, hpt⟩
    obtain ⟨x, hx, rfl⟩ := List.mem_map.1 ht
    rw [(List.mem_replicate.1 hx).2] at hpt
    exact hp hpt
  have hcount : countAdds ((List.replicate n m).map (fun m => moduleTask m.1 m.2)).flatten =
      n * taskAdds m.1 m.2 := by
    rw [interleaving_countAdds hint, List.map_map, List.map_replicate, List.sum_replicate]
    rfl
  unfold sequentialRun
  rw [cutAtPanic_of_not_mem _ hno]
  simp only [processOutcome, hno, if_false]
  rw [finalErrCount_wrap, hcount]

theorem failedModules_replicate (n : Nat) (m : String × StageResults)
    (h : modulePasses m.2 = false) : failedModules (List.replicate n m) = n := by
  induction n with
  | zero => rfl
  | succ k ih =>
    unfold failedModules at ih ⊢
    rw [List.replicate_succ, List.filter_cons]
    simp [h, ih]

theorem stagesCalled_append (a b : List Action) :
    stagesCalled (a ++ b) = stagesCalled a ++ stagesCalled b := by
  simp [stagesCalled, List.filterMap_append]

theorem logsWritten_append (a b : List Action) :
    logsWritten (a ++ b) = logsWritten a ++ logsWritten b := by
  simp [logsWritten, List.filterMap_append]

theorem stagesCalled_map_log {α : Type} (l : List α) (f : α → LogEntry) :
    stagesCalled (l.map (fun d => Action.log (f d))) = [] := by
  induction l with
  | nil => rfl
  | cons a l ih =>
    unfold stagesCalled at ih ⊢
    rw [List.map_cons, List.filterMap_cons]
    exact ih

theorem logsWritten_map_log {α : Type} (l : List α) (f : α → LogEntry) :
    logsWritten (l.map (fun d => Action.log (f d))) = l.map f := by
  induction l with
  | nil => rfl
  | cons a l ih =>
    unfold logsWritten at ih ⊢
    rw [List.map_cons, List.filterMap_cons, List.map_cons]
    simp only
    rw [ih]

theorem stagesCalled_formatStage (module : String) (fc : Bool × List String × Option String) :
    stagesCalled (formatStage module fc) = [Stage.formatCheck] := by
  unfold formatStage
  cases fc.1 <;> rfl

/-- The stages called from `Validate` on: `Validate`, then `FormatCheck` when
`Validate` returns a result whose diagnostics all carry a `Range`. -/
theorem stagesCalled_validateStage (module : String) (r : StageResults) :
    stagesCalled (validateStage module r) =
      Stage.validate ::
        (match r.validate with
         | .error _ => []
         | .ok validate =>
           if validate.diagnostics.all (fun d => d.range.isSome) then [Stage.formatCheck]
           else []) := by
  have hc : ∀ l : List Action, stagesCalled (Action.call Stage.validate :: l) =
      Stage.validate :: stagesCalled l := fun l => rfl
  unfold validateStage
  cases hv : r.validate with
  | error e => rfl
  | ok validate =>
    have hif : stagesCalled (if (!validate.valid) = true then [Action.addErrCount] else []) = [] := by
      cases validate.valid <;> rfl
    dsimp only
    by_cases hall : validate.diagnostics.all (fun d => d.range.isSome) = true
    · rw [diagnosticsLoop_of_ranges module _ validate.diagnostics hall, if_pos hall]
      simp only [hc, stagesCalled_append, hif, stagesCalled_map_log, stagesCalled_formatStage,
        List.nil_append]
    · have hall2 : validate.diagnostics.all (fun d => d.range.isSome) = false := by
        simpa using hall
      have h2 := (diagnosticsLoop_of_rangeless module (formatStage module r.formatCheck)
        validate.diagnostics hall2).2.1
      rw [if_neg hall]
      simp only [hc, stagesCalled_append, hif, h2, List.nil_append]

/-- C1 (as stated) fails: for the single module `invalidUnformattedModule`, which
is reported invalid and reported unformatted (its diagnostic has a `Range`),
`os.Exit` is handed 2 while one module failed. -/
theorem errCount_not_failed_modules :
    MainRun [("/ws/mod", invalidUnformattedModule)]
      (sequentialRun [("/ws/mod", invalidUnformattedModule)]) ∧
    processOutcome (sequentialRun [("/ws/mod", invalidUnformattedModule)]) = Outcome.exit 2 ∧
    failedModules [("/ws/mod", invalidUnformattedModule)] = 1 :=
  ⟨sequentialRun_mainRun _, by decide, by decide⟩

/-- C1 (amended): for fewer than 2^30 modules (the `int32` counter cannot wrap)
whose `Validate` diagnostics all carry a `Range`, every execution of the module
tasks ends in `os.Exit(int(errCount))`, and the value handed to it is the
number of failed modules plus the number of modules that are both reported
invalid by a successful `Validate` and reported not formatted: a passing module
adds 0, a module that is both invalid and not formatted adds 2, every other
failed module adds 1. -/
theorem errCount_counts_failures (modules : List (String × StageResults))
    (trace : List Action) (hbound : modules.length < 2 ^ 30)
    (hranges : ∀ m ∈ modules, rangesPresent m.2 = true) (hrun : MainRun modules trace) :
    processOutcome trace = Outcome.exit
      ((failedModules modules +
        (modules.filter (fun m => invalidAndUnformatted m.2)).length : Nat) : Int) ∧
    ∀ m ∈ modules, taskAdds m.1 m.2 =
      if modulePasses m.2 then 0 else if invalidAndUnformatted m.2 then 2 else 1 :=
  ⟨mainRun_outcome modules trace hbound hranges hrun,
    fun m hm => taskAdds_eq m.1 m.2 (hranges m hm)⟩

/-- Instance of the amended C1: a passing module, a module failing at `get` and
a module both invalid and unformatted give the exit value 3. -/
theorem errCount_counts_failures_witness :
    processOutcome (sequentialRun
      [("/ws/a", passingModule), ("/ws/b", failsAtGet), ("/ws/c", invalidUnformattedModule)]) =
      Outcome.exit 3 :=
  (errCount_counts_failures
    [("/ws/a", passingModule), ("/ws/b", failsAtGet), ("/ws/c", invalidUnformattedModule)]
    _ (by decide) (by decide) (sequentialRun_mainRun _)).1.trans (by decide)

/-- C10 (as stated) fails in two places.  The task of `rangelessUnformatted` (a
valid module with a warning that has no `Range`, files not formatted) adds 0
although `FormatCheck` never returns formatted: the task panics before calling
it and `os.Exit(int(errCount))` is not reached.  And 2^31 modules that all fail
at `get` wrap the `int32` counter: `os.Exit` is handed -2147483648, below the
number of failed modules. -/
theorem errCount_bounds_fail :
    moduleTask "/ws/mod" rangelessUnformatted =
      [Action.call Stage.get, Action.call Stage.newTerraform, Action.call Stage.init,
        Action.call Stage.validate, Action.panic] ∧
    taskAdds "/ws/mod" rangelessUnformatted = 0 ∧
    rangelessUnformatted.formatCheck.1 = false ∧
    processOutcome (sequentialRun [("/ws/mod", rangelessUnformatted)]) = Outcome.panicked ∧
    processOutcome (sequentialRun (List.replicate 2147483648 ("/ws/mod", failsAtGet))) =
      Outcome.exit (-2147483648) ∧
    failedModules (List.replicate 2147483648 ("/ws/mod", failsAtGet)) = 2147483648 := by
  refine ⟨by decide, by decide, rfl, by decide, ?_, ?_⟩
  · have hp : Action.panic ∉ moduleTask "/ws/mod" failsAtGet := by decide
    have hadds : taskAdds "/ws/mod" failsAtGet = 1 := by decide
    have h := sequentialRun_replicate 2147483648 ("/ws/mod", failsAtGet) hp
    rw [h]
    show Outcome.exit (wrapInt32 ((2147483648 * taskAdds "/ws/mod" failsAtGet : Nat) : Int)) = _
    rw [hadds]
    decide
  · exact failedModules_replicate 2147483648 ("/ws/mod", failsAtGet) (by decide)

/-- C10 (amended): a module task whose `Validate` diagnostics all carry a `Range`
adds at most 2 to the counter, and adds 0 exactly when `get` succeeds, the
client is created, `Validate` is invoked without error and reports valid, and
`FormatCheck` returns formatted; for fewer than 2^30 such modules (the `int32`
counter cannot wrap) every execution ends in `os.Exit(int(errCount))`, the
value handed to it is 0 exactly when every module passes all of these, and it
lies between the number of failed modules and twice that number. -/
theorem errCount_bounds (modules : List (String × StageResults)) (trace : List Action)
    (hbound : modules.length < 2 ^ 30)
    (hranges : ∀ m ∈ modules, rangesPresent m.2 = true) (hrun : MainRun modules trace) :
    (∀ (module : String) (r : StageResults), rangesPresent r = true →
      taskAdds module r ≤ 2 ∧
      (taskAdds module r = 0 ↔
        (∃ execPath, r.get = .ok execPath) ∧ r.newTerraform = none ∧
        (∃ validate, r.validate = .ok validate ∧ validate.valid = true) ∧
        r.formatCheck.1 = true)) ∧
    (processOutcome trace = Outcome.exit 0 ↔
      ∀ m ∈ modules, (∃ execPath, m.2.get = .ok execPath) ∧ m.2.newTerraform = none ∧
        (∃ validate, m.2.validate = .ok validate ∧ validate.valid = true) ∧
        m.2.formatCheck.1 = true) ∧
    ∃ code : Int, processOutcome trace = Outcome.exit code ∧
      (failedModules modules : Int) ≤ code ∧ code ≤ 2 * (failedModules modules : Int) := by
  have hfin := mainRun_outcome modules trace hbound hranges hrun
  have hle := invalidAndUnformatted_le modules
  refine ⟨?_, ?_, ?_⟩
  · intro module r hr
    rw [taskAdds_eq module r hr, ← modulePasses_iff]
    cases modulePasses r <;> cases invalidAndUnformatted r <;> simp
  · rw [hfin]
    constructor
    · intro h m hm
      injection h with h
      have h0 : failedModules modules = 0 := by omega
      exact (modulePasses_iff m.2).1 ((failedModules_eq_zero modules).1 h0 m hm)
    · intro h
      have h0 : failedModules modules = 0 :=
        (failedModules_eq_zero modules).2 (fun m hm => (modulePasses_iff m.2).2 (h m hm))
      congr 1
      omega
  · exact ⟨_, hfin, by omega, by omega⟩

/-- Instance of the amended C10: with a passing module, a module failing at `get`
and a module both invalid and unformatted, two modules failed and the exit
value lies between 2 and 4. -/
theorem errCount_bounds_witness :
    ∃ code : Int,
      processOutcome (sequentialRun
        [("/ws/a", passingModule), ("/ws/b", failsAtGet), ("/ws/c", invalidUnformattedModule)]) =
        Outcome.exit code ∧
      (2 : Int) ≤ code ∧ code ≤ 4 :=
  (errCount_bounds
    [("/ws/a", passingModule), ("/ws/b", failsAtGet), ("/ws/c", invalidUnformattedModule)]
    _ (by decide) (by decide) (sequentialRun_mainRun _)).2.2

/-- C5: the code at the failing input.  For the valid module
`formatInvocationFails`, whose `FormatCheck` returns `false`, no files and an
error, the task discards the error, logs "Unformatted files: " with no file and
increments the counter: `os.Exit` is handed 1, where the claim says that an
invocation failure is not counted. -/
theorem format_invocation_failure_increments :
    moduleTask "/ws/mod" formatInvocationFails =
      [Action.call Stage.get, Action.call Stage.newTerraform, Action.call Stage.init,
        Action.call Stage.validate, Action.call Stage.formatCheck,
        taskLog Level.error "/ws/mod" "Unformatted files: ", Action.addErrCount] ∧
    taskAdds "/ws/mod" formatInvocationFails = 1 ∧
    processOutcome (sequentialRun [("/ws/mod", formatInvocationFails)]) = Outcome.exit 1 :=
  ⟨by decide, by decide, by decide⟩

/-- C7: for a module whose toolchain is obtained and whose client is created, a
failing `Init` only adds a warning to the log: the task is the one of a
succeeding `Init` with that warning inserted after the `Init` call.  So it adds
the same amount to the counter and calls the same stages; `Validate` is invoked
right after `Init`, and `FormatCheck` after `Validate` whenever the task gets
past `Validate` and the loop over its diagnostics, as with a succeeding
`Init`. -/
theorem init_failure_not_counted (module : String) (r : StageResults)
    (execPath err : String)
    (hget : r.get = .ok execPath) (hnew : r.newTerraform = none) (hinit : r.init = some err) :
    moduleTask module r =
      [Action.call Stage.get, Action.call Stage.newTerraform, Action.call Stage.init,
        taskLog Level.warn module ("Terraform init error: " ++ err)] ++
        validateStage module r ∧
    moduleTask module { r with init := none } =
      [Action.call Stage.get, Action.call Stage.newTerraform, Action.call Stage.init] ++
        validateStage module r ∧
    taskAdds module r = taskAdds module { r with init := none } ∧
    stagesCalled (moduleTask module r) =
      stagesCalled (moduleTask module { r with init := none }) ∧
    (∃ tail, stagesCalled (moduleTask module r) =
        [Stage.get, Stage.newTerraform, Stage.init, Stage.validate] ++ tail ∧
        (tail = [] ∨ tail = [Stage.formatCheck])) ∧
    (∀ validate, r.validate = .ok validate →
      validate.diagnostics.all (fun d => d.range.isSome) = true →
      stagesCalled (moduleTask module r) =
        [Stage.get, Stage.newTerraform, Stage.init, Stage.validate, Stage.formatCheck]) := by
  have h1 : moduleTask module r =
      [Action.call Stage.get, Action.call Stage.newTerraform, Action.call Stage.init,
        taskLog Level.warn module ("Terraform init error: " ++ err)] ++
        validateStage module r := by
    simp [moduleTask, hget, hnew, initStage, hinit]
  have h2 : moduleTask module { r with init := none } =
      [Action.call Stage.get, Action.call Stage.newTerraform, Action.call Stage.init] ++
        validateStage module r := by
    simp [moduleTask, hget, hnew, initStage, validateStage]
  have hs1 : stagesCalled (moduleTask module r) =
      [Stage.get, Stage.newTerraform, Stage.init] ++ stagesCalled (validateStage module r) := by
    rw [h1, stagesCalled_append]; rfl
  have hs2 : stagesCalled (moduleTask module { r with init := none }) =
      [Stage.get, Stage.newTerraform, Stage.init] ++ stagesCalled (validateStage module r) := by
    rw [h2, stagesCalled_append]; rfl
  refine ⟨h1, h2, ?_, hs1.trans hs2.symm, ?_, ?_⟩
  · unfold taskAdds
    rw [h1, h2, countAdds_append, countAdds_append]
    simp [countAdds, taskLog]
  · rw [hs1, stagesCalled_validateStage]
    cases hv : r.validate with
    | error e => exact ⟨[], rfl, Or.inl rfl⟩
    | ok validate =>
      by_cases hall : validate.diagnostics.all (fun d => d.range.isSome) = true
      · exact ⟨[Stage.formatCheck], by dsimp only; rw [if_pos hall]; rfl, Or.inr rfl⟩
      · exact ⟨[], by dsimp only; rw [if_neg hall]; rfl, Or.inl rfl⟩
  · intro validate hv hall
    rw [hs1, stagesCalled_validateStage, hv]
    dsimp only
    rw [if_pos hall]
    rfl

/-- Instance of C7 on `initFailsInvalid`: the failing `Init` adds nothing, the
invalid report adds 1, and all stages are called in order. -/
theorem init_failure_not_counted_witness :
    taskAdds "/ws/mod" initFailsInvalid = 1 ∧
    stagesCalled (moduleTask "/ws/mod" initFailsInvalid) =
      [Stage.get, Stage.newTerraform, Stage.init, Stage.validate, Stage.formatCheck] :=
  have h := init_failure_not_counted "/ws/mod" initFailsInvalid sampleExec "exit status 1"
    rfl rfl rfl
  ⟨h.2.2.1.trans (by decide), h.2.2.2.2.2 _ rfl rfl⟩

/-- C8 (as stated) fails: a diagnostic with a `Range` whose severity is neither
"error" nor "warning" is dropped, the task logs nothing for it. -/
theorem unknown_severity_not_logged :
    logsWritten (moduleTask "/ws/mod"
      { passingModule with
        validate := .ok { valid := true, diagnostics := [unknownDiagnostic] } }) = [] ∧
    moduleTask "/ws/mod"
      { passingModule with
        validate := .ok { valid := true, diagnostics := [unknownDiagnostic] } } =
      [Action.call Stage.get, Action.call Stage.newTerraform, Action.call Stage.init,
        Action.call Stage.validate, Action.call Stage.formatCheck] :=
  ⟨by decide, by decide⟩

/-- C8 (amended): for a module whose `Validate` call succeeds and whose
diagnostics all carry a `Range`, the task logs between the `Validate` and the
`FormatCheck` calls, in order, exactly one message for each diagnostic whose
severity is "error" (at error level, the `Detail` text) or "warning" (at
warning level, the `Summary` text), with the file name and line of its range,
and nothing for a diagnostic of any other severity. -/
theorem diagnostics_logged (module : String) (r : StageResults) (execPath : String)
    (validate : ValidateOutput)
    (hget : r.get = .ok execPath) (hnew : r.newTerraform = none)
    (hval : r.validate = .ok validate)
    (hranges : validate.diagnostics.all (fun d => d.range.isSome) = true) :
    moduleTask module r =
      [Action.call Stage.get, Action.call Stage.newTerraform] ++ initStage module r ++
        [Action.call Stage.validate] ++
        (if validate.valid then [] else [Action.addErrCount]) ++
        (validate.diagnostics.filter
          (fun d => decide (d.severity = "error") || decide (d.severity = "warning"))).map
          (fun d => Action.log
            { level := if d.severity = "error" then Level.error else Level.warn,
              module := module,
              filename := d.range.map (fun rg => rg.filename),
              line := d.range.map (fun rg => rg.line),
              message := if d.severity = "error" then d.detail else d.summary }) ++
        formatStage module r.formatCheck ∧
    logsWritten (moduleTask module r) =
      logsWritten (initStage module r) ++
        (validate.diagnostics.filter
          (fun d => decide (d.severity = "error") || decide (d.severity = "warning"))).map
          (fun d =>
            { level := if d.severity = "error" then Level.error else Level.warn,
              module := module,
              filename := d.range.map (fun rg => rg.filename),
              line := d.range.map (fun rg => rg.line),
              message := if d.severity = "error" then d.detail else d.summary }) ++
        logsWritten (formatStage module r.formatCheck) := by
  have h := moduleTask_of_ranges module r execPath validate hget hnew hval hranges
  refine ⟨h, ?_⟩
  rw [h]
  have hif : logsWritten (if validate.valid = true then [] else [Action.addErrCount]) = [] := by
    cases validate.valid <;> rfl
  have e1 : logsWritten [Action.call Stage.get, Action.call Stage.newTerraform] = [] := rfl
  have e2 : logsWritten [Action.call Stage.validate] = [] := rfl
  simp only [logsWritten_append, logsWritten_map_log, hif, e1, e2, List.append_nil,
    List.nil_append]

/-- Instance of the amended C8: for a valid, formatted module whose `Validate`
returns `sampleDiagnostics`, the task logs the error and then the warning. -/
theorem diagnostics_logged_witness :
    logsWritten (moduleTask "/ws/mod"
      { passingModule with
        validate := .ok { valid := true, diagnostics := sampleDiagnostics } }) =
      [{ level := Level.error, module := "/ws/mod", filename := some "main.tf", line := some 3,
         message := "no argument named x" },
       { level := Level.warn, module := "/ws/mod", filename := some "outputs.tf",
         line := some 7, message := "Deprecated attribute" }] :=
  (diagnostics_logged "/ws/mod"
    { passingModule with validate := .ok { valid := true, diagnostics := sampleDiagnostics } }
    sampleExec { valid := true, diagnostics := sampleDiagnostics } rfl rfl rfl
    (by decide)).2.trans (by decide)

/-! ## `strings.Split`, `strings.Join` and `path.Join` -/

theorem splitOnChar_ne_nil (sep : Char) (s : List Char) : splitOnChar sep s ≠ [] := by
  induction s with
  | nil => simp [splitOnChar]
  | cons c cs ih =>
    unfold splitOnChar
    split_ifs
    · simp
    · split <;> simp

theorem splitOnChar_of_not_mem (sep : Char) (s : List Char) (h : sep ∉ s) :
    splitOnChar sep s = [s] := by
  induction s with
  | nil => rfl
  | cons c cs ih =>
    have hc : c ≠ sep := fun e => h (e ▸ List.mem_cons_self _ _)
    have hcs : sep ∉ cs := fun e => h (List.mem_cons_of_mem _ e)
    simp [splitOnChar, hc, ih hcs]

theorem splitOnChar_append (sep : Char) (a b : List Char) :
    splitOnChar sep (a ++ sep :: b) = splitOnChar sep a ++ splitOnChar sep b := by
  induction a with
  | nil => simp [splitOnChar]
  | cons c cs ih =>
    by_cases hc : c = sep
    · simp [splitOnChar, hc, ih]
    · rw [List.cons_append]
      simp only [splitOnChar, hc, if_false]
      rw [ih]
      cases hs : splitOnChar sep cs with
      | nil => exact absurd hs (splitOnChar_ne_nil sep cs)
      | cons f fs => simp

theorem splitOnChar_free (sep : Char) (s : List Char) : ∀ f ∈ splitOnChar sep s, sep ∉ f := by
  induction s with
  | nil => simp [splitOnChar]
  | cons c cs ih =>
    by_cases hc : c = sep
    · simp only [splitOnChar, hc, if_true, List.mem_cons]
      rintro f (rfl | hf)
      · simp
      · exact ih f hf
    · simp only [splitOnChar, hc, if_false]
      cases hs : splitOnChar sep cs with
      | nil => exact absurd hs (splitOnChar_ne_nil sep cs)
      | cons g gs =>
        rw [hs] at ih
        simp only [List.mem_cons]
        rintro f (rfl | hf)
        · intro hmem
          rcases List.mem_cons.1 hmem with h1 | h1
          · exact hc h1.symm
          · exact ih g (List.mem_cons_self _ _) h1
        · exact ih f (List.mem_cons_of_mem _ hf)

theorem splitOnChar_join (sep : Char) :
    ∀ l : List (List Char), l ≠ [] → (∀ f ∈ l, sep ∉ f) →
      splitOnChar sep (joinWithChar sep l) = l
  | [], h, _ => absurd rfl h
  | [f], _, hf => by
    simp only [joinWithChar]
    exact splitOnChar_of_not_mem sep f (hf f (List.mem_cons_self _ _))
  | f :: g :: rest, _, hf => by
    simp only [joinWithChar]
    rw [splitOnChar_append, splitOnChar_of_not_mem sep f (hf f (List.mem_cons_self _ _)),
      splitOnChar_join sep (g :: rest) (List.cons_ne_nil _ _)
        (fun x hx => hf x (List.mem_cons_of_mem _ hx))]
    rfl

/-- `strings.Join` is one-to-one on lists of non-empty fields without the
separator inside. -/
theorem joinWithChar_injective (sep : Char) (l1 l2 : List (List Char))
    (h1 : ∀ f ∈ l1, f ≠ [] ∧ sep ∉ f) (h2 : ∀ f ∈ l2, f ≠ [] ∧ sep ∉ f)
    (h : joinWithChar sep l1 = joinWithChar sep l2) : l1 = l2 := by
  have key : ∀ l : List (List Char), (∀ f ∈ l, f ≠ [] ∧ sep ∉ f) →
      joinWithChar sep l = [] → l = [] := by
    intro l hl hj
    by_contra hne
    have hs := splitOnChar_join sep l hne (fun f hf => (hl f hf).2)
    rw [hj] at hs
    have : [] ∈ l := by rw [← hs]; simp [splitOnChar]
    exact (hl [] this).1 rfl
  by_cases e1 : l1 = []
  · subst e1
    exact (key l2 h2 (by rw [← h]; rfl)).symm
  · by_cases e2 : l2 = []
    · subst e2
      exact key l1 h1 (by rw [h]; rfl)
    · rw [← splitOnChar_join sep l1 e1 (fun f hf => (h1 f hf).2),
        ← splitOnChar_join sep l2 e2 (fun f hf => (h2 f hf).2), h]

theorem cleanStep_of_clean (rooted : Bool) (out : List (List Char)) (c : List Char)
    (h1 : c ≠ []) (h2 : c ≠ ['.']) (h3 : c ≠ ['.', '.']) :
    cleanStep rooted out c = out ++ [c] := by
  simp [cleanStep, h1, h2, h3]

theorem foldl_cleanStep_of_clean (rooted : Bool) (cs : List (List Char)) (h : CleanElems cs) :
    ∀ out, cs.foldl (cleanStep rooted) out = out ++ cs := by
  induction cs with
  | nil => intro out; simp
  | cons c cs ih =>
    intro out
    obtain ⟨h1, h2, h3, _⟩ := h c (List.mem_cons_self _ _)
    rw [List.foldl_cons, cleanStep_of_clean rooted out c h1 h2 h3,
      ih (fun x hx => h x (List.mem_cons_of_mem _ hx))]
    simp

theorem cleanStep_cases (rooted : Bool) (out : List (List Char)) (c : List Char) :
    cleanStep rooted out c = out ∨
      (cleanStep rooted out c = out ++ [c] ∧ c ≠ [] ∧ c ≠ ['.']) ∨
      cleanStep rooted out c = out.dropLast := by
  unfold cleanStep
  by_cases h1 : c = []
  · simp [h1]
  by_cases h2 : c = ['.']
  · simp [h2]
  by_cases h3 : c = ['.', '.']
  · subst h3
    cases hl : out.getLast? with
    | none => cases rooted <;> simp
    | some last => by_cases h4 : last = ['.', '.'] <;> simp [h4]
  · simp [h1, h2, h3]

theorem cleanStep_elems (rooted : Bool) (out : List (List Char)) (c : List Char)
    (hout : ∀ f ∈ out, f ≠ [] ∧ '/' ∉ f) (hc : '/' ∉ c) :
    ∀ f ∈ cleanStep rooted out c, f ≠ [] ∧ '/' ∉ f := by
  rcases cleanStep_cases rooted out c with h | ⟨h, hne, _⟩ | h
  · rw [h]; exact hout
  · rw [h]
    intro f hf
    rcases List.mem_append.1 hf with h | h
    · exact hout f h
    · rw [List.mem_singleton.1 h]; exact ⟨hne, hc⟩
  · rw [h]
    intro f hf
    exact hout f (List.mem_of_mem_dropLast hf)

theorem cleanStep_no_dot (rooted : Bool) (out : List (List Char)) (c : List Char)
    (hout : ['.'] ∉ out) : ['.'] ∉ cleanStep rooted out c := by
  rcases cleanStep_cases rooted out c with h | ⟨h, _, hdot⟩ | h
  · rw [h]; exact hout
  · rw [h]
    intro hf
    rcases List.mem_append.1 hf with h | h
    · exact hout h
    · exact hdot (List.mem_singleton.1 h).symm
  · rw [h]
    intro hf
    exact hout (List.mem_of_mem_dropLast hf)

theorem foldl_cleanStep_elems (rooted : Bool) (xs : List (List Char))
    (hxs : ∀ c ∈ xs, '/' ∉ c) :
    ∀ out, (∀ f ∈ out, f ≠ [] ∧ '/' ∉ f) →
      ∀ f ∈ xs.foldl (cleanStep rooted) out, f ≠ [] ∧ '/' ∉ f := by
  induction xs with
  | nil => intro out hout; simpa using hout
  | cons c cs ih =>
    intro out hout
    rw [List.foldl_cons]
    exact ih (fun x hx => hxs x (List.mem_cons_of_mem _ hx)) _
      (cleanStep_elems rooted out c hout (hxs c (List.mem_cons_self _ _)))

theorem joinWithChar_head (cs : List (List Char)) (h : CleanElems cs) (hne : cs ≠ []) :
    joinWithChar '/' cs ≠ [] ∧ (joinWithChar '/' cs).head? ≠ some '/' := by
  match cs, hne with
  | [c], _ =>
    obtain ⟨h1, _, _, h4⟩ := h c (List.mem_cons_self _ _)
    simp only [joinWithChar]
    refine ⟨h1, ?_⟩
    cases c with
    | nil => exact absurd rfl h1
    | cons x xs =>
      intro hx
      simp only [List.head?_cons, Option.some.injEq] at hx
      exact h4 (hx ▸ List.mem_cons_self _ _)
  | c :: d :: rest, _ =>
    obtain ⟨h1, _, _, h4⟩ := h c (List.mem_cons_self _ _)
    simp only [joinWithChar]
    cases c with
    | nil => exact absurd rfl h1
    | cons x xs =>
      refine ⟨by simp, ?_⟩
      intro hx
      simp only [List.cons_append, List.head?_cons, Option.some.injEq] at hx
      exact h4 (hx ▸ List.mem_cons_self _ _)

/-- `path.Join` of a workspace and a relative path made of clean elements: the
elements are appended to what `path.Clean` keeps of the workspace. -/
theorem pathJoinChars_of_clean (ws : List Char) (cs : List (List Char)) (h : CleanElems cs) :
    pathJoinChars ws (joinWithChar '/' cs) =
      if ws = [] then joinWithChar '/' cs
      else renderPath (ws.head? = some '/')
        ((splitOnChar '/' ws).foldl (cleanStep (ws.head? = some '/')) [] ++ cs) := by
  by_cases hcs : cs = []
  · subst hcs
    by_cases hws : ws = []
    · simp [pathJoinChars, hws, joinWithChar]
    · simp [pathJoinChars, hws, joinWithChar, pathClean, renderPath]
  · obtain ⟨hj1, hj2⟩ := joinWithChar_head cs h hcs
    have hfree : ∀ f ∈ cs, '/' ∉ f := fun f hf => (h f hf).2.2.2
    by_cases hws : ws = []
    · subst hws
      have hr : decide ((joinWithChar '/' cs).head? = some '/') = false := by simpa using hj2
      simp only [pathJoinChars, hj1, and_false, if_false, if_true, pathClean, hr,
        splitOnChar_join '/' cs hcs hfree, foldl_cleanStep_of_clean false cs h,
        List.nil_append, hcs, Bool.false_eq_true]
    · have hne : ws ++ '/' :: joinWithChar '/' cs ≠ [] := by simp [hws]
      have hhead : (ws ++ '/' :: joinWithChar '/' cs).head? = ws.head? := by
        cases ws with
        | nil => exact absurd rfl hws
        | cons x xs => rfl
      simp only [pathJoinChars, hws, hj1, false_and, and_false, if_false, pathClean, hne, hhead,
        splitOnChar_append, splitOnChar_join '/' cs hcs hfree, List.foldl_append,
        foldl_cleanStep_of_clean _ cs h, renderPath]

/-- `path.Join(ws, ·)` is one-to-one on relative paths made of clean elements. -/
theorem pathJoinChars_injective (ws : List Char) (cs1 cs2 : List (List Char))
    (h1 : CleanElems cs1) (h2 : CleanElems cs2)
    (h : pathJoinChars ws (joinWithChar '/' cs1) = pathJoinChars ws (joinWithChar '/' cs2)) :
    joinWithChar '/' cs1 = joinWithChar '/' cs2 := by
  rw [pathJoinChars_of_clean ws cs1 h1, pathJoinChars_of_clean ws cs2 h2] at h
  by_cases hws : ws = []
  · simpa [hws] using h
  · simp only [hws, if_false] at h
    generalize hout : (splitOnChar '/' ws).foldl (cleanStep (ws.head? = some '/')) [] = out at h
    have hoel : ∀ f ∈ out, f ≠ [] ∧ '/' ∉ f := by
      rw [← hout]
      exact foldl_cleanStep_elems _ _ (splitOnChar_free '/' ws) [] (by simp)
    have hel : ∀ cs, CleanElems cs → ∀ f ∈ out ++ cs, f ≠ [] ∧ '/' ∉ f := by
      intro cs hcs f hf
      rcases List.mem_append.1 hf with hf | hf
      · exact hoel f hf
      · exact ⟨(hcs f hf).1, (hcs f hf).2.2.2⟩
    have hdot : ∀ cs, CleanElems cs → out ++ cs ≠ [] →
        joinWithChar '/' (out ++ cs) ≠ ['.'] := by
      intro cs hcs hne hj
      have hs := splitOnChar_join '/' (out ++ cs) hne (fun f hf => (hel cs hcs f hf).2)
      rw [hj] at hs
      have hsplit : splitOnChar '/' ['.'] = [['.']] := by decide
      rw [hsplit] at hs
      have hmem : ['.'] ∈ out ++ cs := by rw [← hs]; simp
      rcases List.mem_append.1 hmem with hm | hm
      · have hin : ['.'] ∈ (splitOnChar '/' ws).foldl (cleanStep (ws.head? = some '/')) [] := by
          rw [hout]; exact hm
        have hall : ∀ (xs : List (List Char)) (acc : List (List Char)),
            ['.'] ∉ acc → ['.'] ∉ xs.foldl (cleanStep (ws.head? = some '/')) acc := by
          intro xs
          induction xs with
          | nil => intro acc hacc; simpa using hacc
          | cons x xs ih =>
            intro acc hacc
            rw [List.foldl_cons]
            exact ih _ (cleanStep_no_dot _ acc x hacc)
        exact hall _ [] (by simp) hin
      · exact (hcs ['.'] hm).2.1 rfl
    have hjoin : joinWithChar '/' (out ++ cs1) = joinWithChar '/' (out ++ cs2) ∨
        (out ++ cs1 = [] ∧ out ++ cs2 = []) := by
      unfold renderPath at h
      by_cases hr : (decide (ws.head? = some '/')) = true
      · simp only [hr, if_true, List.cons.injEq, true_and] at h
        exact Or.inl h
      · simp only [hr, if_false, Bool.false_eq_true] at h
        by_cases e1 : out ++ cs1 = []
        · by_cases e2 : out ++ cs2 = []
          · exact Or.inr ⟨e1, e2⟩
          · rw [if_pos e1, if_neg e2] at h
            exact absurd h.symm (hdot cs2 h2 e2)
        · by_cases e2 : out ++ cs2 = []
          · rw [if_neg e1, if_pos e2] at h
            exact absurd h (hdot cs1 h1 e1)
          · rw [if_neg e1, if_neg e2] at h
            exact Or.inl h
    have heq : out ++ cs1 = out ++ cs2 := by
      rcases hjoin with hj | ⟨e1, e2⟩
      · exact joinWithChar_injective '/' _ _ (hel cs1 h1) (hel cs2 h2) hj
      · rw [e1, e2]
    rw [List.append_cancel_left heq]

/-! ## `findChangedModules` -/

theorem moduleKey_eq (line : String) :
    moduleKey line = String.mk (joinWithChar '/' (dirElems line)) := by
  unfold moduleKey strJoin strSplit dirElems
  rw [← List.map_dropLast, List.map_map]
  have : (String.toList ∘ String.mk) = id := by funext c; rfl
  rw [this, List.map_id]

theorem gitPath_clean (line : String) (h : GitPath line) : CleanElems (dirElems line) := by
  intro c hc
  have hmem : String.mk c ∈ (strSplit '/' line).dropLast := by
    unfold strSplit
    rw [← List.map_dropLast]
    exact List.mem_map_of_mem _ hc
  obtain ⟨h1, h2, h3⟩ := h (String.mk c) hmem
  refine ⟨?_, ?_, ?_, ?_⟩
  · intro e; exact h1 (by rw [e])
  · intro e; exact h2 (by rw [e])
  · intro e; exact h3 (by rw [e])
  · exact splitOnChar_free '/' line.toList c (List.mem_of_mem_dropLast hc)

/-- On the lines that `git` prints, `path.Join(workspace, ·)` sends different
keys of `uniqueMap` to different paths. -/
theorem pathJoin_moduleKey_injective (workspace line1 line2 : String)
    (h1 : GitPath line1) (h2 : GitPath line2)
    (h : pathJoin workspace (moduleKey line1) = pathJoin workspace (moduleKey line2)) :
    moduleKey line1 = moduleKey line2 := by
  rw [moduleKey_eq, moduleKey_eq] at h ⊢
  unfold pathJoin at h
  have h' := congrArg String.data h
  rw [pathJoinChars_injective workspace.toList (dirElems line1) (dirElems line2)
    (gitPath_clean line1 h1) (gitPath_clean line2 h2) h']

theorem insertKey_mem (keys : List String) (key k : String) :
    k ∈ insertKey keys key ↔ k ∈ keys ∨ k = key := by
  unfold insertKey
  split_ifs with h
  · constructor
    · exact Or.inl
    · rintro (h1 | h1)
      · exact h1
      · exact h1 ▸ h
  · simp

theorem insertKey_nodup (keys : List String) (key : String) (h : keys.Nodup) :
    (insertKey keys key).Nodup := by
  unfold insertKey
  split_ifs with hk
  · exact h
  · rw [List.nodup_append]
    refine ⟨h, List.nodup_singleton _, ?_⟩
    intro a ha hb
    rw [List.mem_singleton] at hb
    exact hk (hb ▸ ha)

theorem scanLine_mem (keys : List String) (line k : String) :
    k ∈ scanLine keys line ↔
      k ∈ keys ∨ (line ≠ "" ∧ hasSuffixTf line = true ∧ k = moduleKey line) := by
  unfold scanLine
  by_cases h1 : line = ""
  · simp [h1]
  · by_cases h2 : hasSuffixTf line = true
    · simp [h1, h2, insertKey_mem]
    · simp [h1, h2]

theorem scanLine_nodup (keys : List String) (line : String) (h : keys.Nodup) :
    (scanLine keys line).Nodup := by
  unfold scanLine
  split_ifs
  · exact h
  · exact h
  · exact insertKey_nodup keys _ h

theorem foldl_scanLine_mem (lines : List String) (k : String) :
    ∀ keys, k ∈ lines.foldl scanLine keys ↔
      k ∈ keys ∨ ∃ line ∈ lines, line ≠ "" ∧ hasSuffixTf line = true ∧ k = moduleKey line := by
  induction lines with
  | nil => intro keys; simp
  | cons l ls ih =>
    intro keys
    rw [List.foldl_cons, ih, scanLine_mem]
    constructor
    · rintro ((h | h) | ⟨line, hl, h⟩)
      · exact Or.inl h
      · exact Or.inr ⟨l, List.mem_cons_self _ _, h⟩
      · exact Or.inr ⟨line, List.mem_cons_of_mem _ hl, h⟩
    · rintro (h | ⟨line, hl, h⟩)
      · exact Or.inl (Or.inl h)
      · rcases List.mem_cons.1 hl with rfl | hl
        · exact Or.inl (Or.inr h)
        · exact Or.inr ⟨line, hl, h⟩

theorem foldl_scanLine_nodup (lines : List String) :
    ∀ keys : List String, keys.Nodup → (lines.foldl scanLine keys).Nodup := by
  induction lines with
  | nil => intro keys h; exact h
  | cons l ls ih => intro keys h; exact ih _ (scanLine_nodup keys l h)

theorem uniqueMapKeys_mem (output k : String) :
    k ∈ uniqueMapKeys output ↔
      ∃ line ∈ strSplit '\n' output, line ≠ "" ∧ hasSuffixTf line = true ∧ k = moduleKey line := by
  unfold uniqueMapKeys
  rw [foldl_scanLine_mem]
  simp

theorem uniqueMapKeys_nodup (output : String) : (uniqueMapKeys output).Nodup :=
  foldl_scanLine_nodup _ [] List.nodup_nil

/-- C9 (as stated) fails: for the output lines `a/x.tf` and `a//y.tf` in the
workspace `/ws` the keys of `uniqueMap` are `a` and `a/`, both joined to
`/ws/a`: the returned list holds this path twice. -/
theorem findChangedModules_duplicate :
    uniqueMapKeys "a/x.tf\na//y.tf" = ["a", "a/"] ∧
    FindChangedModulesReturns "/ws" "a/x.tf\na//y.tf" ["/ws/a", "/ws/a"] ∧
    ¬ (["/ws/a", "/ws/a"] : List String).Nodup := by
  refine ⟨by decide, ?_, by decide⟩
  have h : findChangedModules "/ws" "a/x.tf\na//y.tf" = ["/ws/a", "/ws/a"] := by decide
  unfold FindChangedModulesReturns
  rw [h]

/-- C9 (amended): for every workspace and every diff output, whatever the order
in which the map is iterated, the returned list holds exactly the paths
`path.Join(workspace, d)` where `d` is a non-empty output line ending in `.tf`
without its last `/`-separated element, and lines not ending in `.tf`
contribute nothing; the keys of `uniqueMap` are distinct, and when the `.tf`
lines are paths as `git` prints them (no empty, `.` or `..` directory element)
the returned list has no duplicate. -/
theorem findChangedModules_spec (workspace output : String) (modules : List String)
    (hret : FindChangedModulesReturns workspace output modules) :
    (∀ p, p ∈ modules ↔
      ∃ line ∈ strSplit '\n' output, line ≠ "" ∧ hasSuffixTf line = true ∧
        p = pathJoin workspace (moduleKey line)) ∧
    (uniqueMapKeys output).Nodup ∧
    ((∀ line ∈ strSplit '\n' output, hasSuffixTf line = true → GitPath line) →
      modules.Nodup) := by
  unfold FindChangedModulesReturns findChangedModules at hret
  refine ⟨?_, uniqueMapKeys_nodup output, ?_⟩
  · intro p
    rw [hret.mem_iff, List.mem_map]
    constructor
    · rintro ⟨k, hk, rfl⟩
      obtain ⟨line, hl, h1, h2, rfl⟩ := (uniqueMapKeys_mem output k).1 hk
      exact ⟨line, hl, h1, h2, rfl⟩
    · rintro ⟨line, hl, h1, h2, rfl⟩
      exact ⟨moduleKey line, (uniqueMapKeys_mem output _).2 ⟨line, hl, h1, h2, rfl⟩, rfl⟩
  · intro hgit
    rw [hret.nodup_iff]
    apply List.Nodup.map_on _ (uniqueMapKeys_nodup output)
    intro k1 hk1 k2 hk2 heq
    obtain ⟨l1, hl1, _, hs1, rfl⟩ := (uniqueMapKeys_mem output k1).1 hk1
    obtain ⟨l2, hl2, _, hs2, rfl⟩ := (uniqueMapKeys_mem output k2).1 hk2
    exact pathJoin_moduleKey_injective workspace l1 l2 (hgit l1 hl1 hs1) (hgit l2 hl2 hs2) heq

/-- Instance of C9 on `sampleDiff` in the workspace `/ws`: the returned list is
a rearrangement of three distinct paths. -/
theorem findChangedModules_spec_witness :
    findChangedModules "/ws" sampleDiff = ["/ws/modules/vpc", "/ws/modules/db", "/ws"] ∧
    (findChangedModules "/ws" sampleDiff).Nodup ∧
    ("/ws/modules/db" ∈ findChangedModules "/ws" sampleDiff ↔
      ∃ line ∈ strSplit '\n' sampleDiff, line ≠ "" ∧ hasSuffixTf line = true ∧
        "/ws/modules/db" = pathJoin "/ws" (moduleKey line)) :=
  have h := findChangedModules_spec "/ws" sampleDiff (findChangedModules "/ws" sampleDiff)
    (List.Perm.refl _)
  ⟨by decide, h.2.2 (by decide), h.1 "/ws/modules/db"⟩

end TfCheck
